import Mathlib

set_option maxRecDepth 4000

/-!
Verification of the npnc lock-free queue library (bounded and unbounded,
SPSC and MPMC variants), shallowly embedded as sequential state machines
over one producer handle and one consumer handle. Machine words (usize)
are modelled as natural numbers reduced modulo 2 ^ 64; wrapping
arithmetic is explicit. Fallible or diverging code paths (reads of
uninitialised cells, Option::unwrap, retry loops that cannot make
progress in a sequential execution) are modelled with Option, where
none marks the path the sequential semantics cannot complete.
-/

/-- The modulus of a 64-bit machine word (usize). -/
def UMOD : Nat := 2 ^ 64

/-- usize::wrapping_add for values below UMOD. -/
def wadd (a b : Nat) : Nat := (a + b) % UMOD

/-- usize::wrapping_sub for values below UMOD. -/
def wsub (a b : Nat) : Nat := (a + (UMOD - b % UMOD)) % UMOD

/-- Reinterpret a usize bit pattern as an isize (two's complement). -/
def ival (a : Nat) : Int := if a < 2 ^ 63 then (a : Int) else (a : Int) - (2 : Int) ^ 64

/-- The signed wrap-aware difference `(a as isize).wrapping_sub(b as isize)`
computed on usize bit patterns, as used by the bounded MPMC queue. -/
def wsubi (a b : Nat) : Int := ival (wsub a b)

/-- Index wrapping `index & (size - 1)` from `Buffer::wrapping_get` and
`Buffer::wrapping_set`. -/
def wrapping_index (index size : Nat) : Nat := index &&& (size - 1)

/-- usize::is_power_of_two (exactly one bit set in a 64-bit word). -/
def is_power_of_two (n : Nat) : Bool := (List.range 64).any fun k => n == 2 ^ k

/-- Indicates the reason a `consume` operation could not return an item. -/
inductive ConsumeError where
  | Disconnected
  | Empty
deriving DecidableEq

/-- Indicates the reason a `produce` operation rejected an item. -/
inductive ProduceError (T : Type) where
  | Disconnected (item : T)
  | Full (item : T)
deriving DecidableEq

/-- Returns the rejected item (`ProduceError::item`). -/
def ProduceError.item : ProduceError T → T
  | .Disconnected item => item
  | .Full item => item

/-- The equality generated by `#[derive(PartialEq)]` on `ProduceError<T>`:
variants are equal when the discriminants match and the carried items
compare equal. -/
def ProduceError.rustEq [BEq T] : ProduceError T → ProduceError T → Bool
  | .Disconnected a, .Disconnected b => a == b
  | .Full a, .Full b => a == b
  | _, _ => false

/-- One operation of a sequential interleaving through one producer
handle and one consumer handle. -/
inductive Op (T : Type) where
  | produce (item : T)
  | consume
  | dropProducer
  | dropConsumer
deriving DecidableEq

/-- The observable outcome of one operation. -/
inductive Event (T : Type) where
  | accepted (item : T)
  | rejected (error : ProduceError T)
  | consumed (item : T)
  | failed (error : ConsumeError)
deriving DecidableEq

/-- The items accepted by successful produce calls, in order. -/
def acceptedOf : List (Event T) → List T
  | [] => []
  | .accepted x :: es => x :: acceptedOf es
  | _ :: es => acceptedOf es

/-- The items returned by successful consume calls, in order. -/
def consumedOf : List (Event T) → List T
  | [] => []
  | .consumed x :: es => x :: consumedOf es
  | _ :: es => consumedOf es

/-- A queue variant packaged as a sequential state machine: the four
entry points reachable from one producer and one consumer handle.
A `none` result marks a path the sequential semantics cannot complete
(divergence or undefined behaviour). -/
structure QueueModel (T : Type) (Q : Type) where
  produce : Q → T → Option ((Except (ProduceError T) Unit) × Q)
  consume : Q → Option ((Except ConsumeError T) × Q)
  dropP : Q → Q
  dropC : Q → Q

/-- Run one operation, returning the events it generates. -/
def QueueModel.step (M : QueueModel T Q) : Op T → Q → Option (List (Event T) × Q)
  | .produce item, q =>
      (M.produce q item).map fun r => match r with
        | (.ok _, q2) => ([.accepted item], q2)
        | (.error e, q2) => ([.rejected e], q2)
  | .consume, q =>
      (M.consume q).map fun r => match r with
        | (.ok x, q2) => ([.consumed x], q2)
        | (.error e, q2) => ([.failed e], q2)
  | .dropProducer, q => some ([], M.dropP q)
  | .dropConsumer, q => some ([], M.dropC q)

/-- Run a sequential interleaving of operations, collecting the events. -/
def QueueModel.run (M : QueueModel T Q) : List (Op T) → Q → Option (List (Event T) × Q)
  | [], q => some ([], q)
  | op :: ops, q =>
      match M.step op q with
      | none => none
      | some (evts, q2) => (M.run ops q2).map fun r => (evts ++ r.1, r.2)

namespace Bounded.Spsc

/-- State of `bounded::spsc::Queue<T>`: the two cursors, the owner-side
cursor caches, the two disconnection counters and the ring buffer. A
buffer cell is `none` when it is uninitialised or moved out of. -/
structure Queue (T : Type) where
  write : Nat
  read_copy : Nat
  consumer : Nat
  read : Nat
  write_copy : Nat
  producer : Nat
  buffer : List (Option T)
deriving DecidableEq

/-- `Queue::new` (the buffer starts uninitialised). -/
def Queue.new (T : Type) (size : Nat) : Queue T :=
  { write := 0, read_copy := 0, consumer := 1,
    read := 0, write_copy := 0, producer := 1,
    buffer := List.replicate size none }

/-- `Buffer::size` of the ring. -/
def Queue.size (q : Queue T) : Nat := q.buffer.length

/-- `Queue::len`. -/
def Queue.len (q : Queue T) : Nat := wsub q.write q.read

/-- `Queue::capacity`. -/
def Queue.capacity (q : Queue T) : Nat := q.size

/-- `Queue::produce`: check the consumer counter, check fullness against
the cached read cursor (refreshing the cache once), then write the cell
and publish the new write cursor. -/
def Queue.produce (q : Queue T) (item : T) : (Except (ProduceError T) Unit) × Queue T :=
  if q.consumer = 0 then (.error (.Disconnected item), q)
  else
    let write := q.write
    let q1 := if wsub write q.read_copy = q.size then { q with read_copy := q.read } else q
    if wsub write q1.read_copy = q1.size then (.error (.Full item), q1)
    else
      let buffer2 := q1.buffer.set (wrapping_index write q1.size) (some item)
      (.ok (), { q1 with buffer := buffer2, write := wadd write 1 })

/-- `Queue::consume`: check emptiness against the cached write cursor
(refreshing the cache once), then move the item out of the cell and
publish the new read cursor. Reading an uninitialised cell is undefined
behaviour, modelled as `none`. -/
def Queue.consume (q : Queue T) : Option ((Except ConsumeError T) × Queue T) :=
  let read := q.read
  let q1 := if read = q.write_copy then { q with write_copy := q.write } else q
  if read = q1.write_copy then
    if q1.producer = 0 then some (.error .Disconnected, q1) else some (.error .Empty, q1)
  else
    match q1.buffer[wrapping_index read q1.size]? with
    | some (some item) =>
        let buffer2 := q1.buffer.set (wrapping_index read q1.size) none
        some (.ok item, { q1 with buffer := buffer2, read := wadd read 1 })
    | _ => none

/-- `Drop for Producer` stores 0 into the producer counter. -/
def Queue.producerDrop (q : Queue T) : Queue T := { q with producer := 0 }

/-- `Drop for Consumer` stores 0 into the consumer counter. -/
def Queue.consumerDrop (q : Queue T) : Queue T := { q with consumer := 0 }

/-- `channel(size)`: asserts the power-of-two precondition (`none` models
the panic) and returns the shared queue both handles reference. -/
def channel (T : Type) (size : Nat) : Option (Queue T) :=
  if is_power_of_two size then some (Queue.new T size) else none

/-- The bounded SPSC queue as a sequential state machine. -/
def model (T : Type) : QueueModel T (Queue T) :=
  { produce := fun q item => some (q.produce item),
    consume := Queue.consume,
    dropP := Queue.producerDrop,
    dropC := Queue.consumerDrop }

end Bounded.Spsc

namespace Bounded.Mpmc

/-- A ring slot of `bounded::mpmc::Queue<T>`: uninitialised storage for
one item (`none` when empty or moved out) and the sequence counter. -/
structure Slot (T : Type) where
  item : Option T
  sequence : Nat
deriving DecidableEq

/-- `Slot::new(index)`: uninitialised cell, sequence counter `index`. -/
def Slot.new (T : Type) (index : Nat) : Slot T := { item := none, sequence := index }

/-- State of `bounded::mpmc::Queue<T>`: the two ticket cursors, the two
disconnection counters and the slot ring. -/
structure Queue (T : Type) where
  write : Nat
  consumer : Nat
  read : Nat
  producer : Nat
  buffer : List (Slot T)
deriving DecidableEq

/-- `Queue::new` initialises slot `index` with sequence `index`. -/
def Queue.new (T : Type) (size : Nat) : Queue T :=
  { write := 0, consumer := 1, read := 0, producer := 1,
    buffer := (List.range size).map (Slot.new T) }

/-- `Buffer::size` of the slot ring. -/
def Queue.size (q : Queue T) : Nat := q.buffer.length

/-- One iteration of the `Queue::produce` retry loop. In a sequential
execution the CAS on the write cursor always succeeds, and a positive
sequence difference repeats the loop with unchanged state, so the loop
spins forever: that diverging path is `none`. -/
def Queue.produce (q : Queue T) (item : T) : Option ((Except (ProduceError T) Unit) × Queue T) :=
  if q.consumer = 0 then some (.error (.Disconnected item), q)
  else
    let write := q.write
    match q.buffer[wrapping_index write q.size]? with
    | none => none
    | some slot =>
      let difference := wsubi slot.sequence write
      if difference < 0 then some (.error (.Full item), q)
      else if difference = 0 then
        let next := wadd write 1
        let buffer2 := q.buffer.set (wrapping_index write q.size) { item := some item, sequence := next }
        some (.ok (), { q with write := next, buffer := buffer2 })
      else none

/-- One iteration of the `Queue::consume` retry loop; as for produce, a
positive sequence difference diverges sequentially (`none`), and moving
an item out of an uninitialised cell is undefined behaviour (`none`). -/
def Queue.consume (q : Queue T) : Option ((Except ConsumeError T) × Queue T) :=
  let read := q.read
  match q.buffer[wrapping_index read q.size]? with
  | none => none
  | some slot =>
    let difference := wsubi slot.sequence (wadd read 1)
    if difference < 0 then
      if q.producer = 0 then some (.error .Disconnected, q) else some (.error .Empty, q)
    else if difference = 0 then
      match slot.item with
      | none => none
      | some item =>
        let next := wadd read 1
        let buffer2 := q.buffer.set (wrapping_index read q.size)
          { item := none, sequence := wadd next (q.size - 1) }
        some (.ok item, { q with read := next, buffer := buffer2 })
    else none

/-- `Drop for Producer` does `fetch_sub(1)` on the producer counter. -/
def Queue.producerDrop (q : Queue T) : Queue T := { q with producer := wsub q.producer 1 }

/-- `Drop for Consumer` does `fetch_sub(1)` on the consumer counter. -/
def Queue.consumerDrop (q : Queue T) : Queue T := { q with consumer := wsub q.consumer 1 }

/-- `channel(size)`: asserts the power-of-two precondition (`none` models
the panic) and returns the shared queue both handles reference. -/
def channel (T : Type) (size : Nat) : Option (Queue T) :=
  if is_power_of_two size then some (Queue.new T size) else none

/-- The bounded MPMC queue as a sequential state machine. -/
def model (T : Type) : QueueModel T (Queue T) :=
  { produce := Queue.produce,
    consume := Queue.consume,
    dropP := Queue.producerDrop,
    dropC := Queue.consumerDrop }

end Bounded.Mpmc

namespace Unbounded

/-- A linked-list node: `{ item: Option<T>, next: *mut Node<T> }`. The
null pointer is `none`; a live pointer is the address of a heap cell. -/
structure Node (T : Type) where
  item : Option T
  next : Option Nat
deriving DecidableEq

/-- The allocator heap: cell `a` holds the node at address `a`, or
`none` once that node has been deallocated. Allocation appends. -/
abbrev Heap (T : Type) := List (Option (Node T))

/-- The linked-list shape invariant: from address `a` the `next` chain
passes exactly the given items, in order, and ends at address `w`.
Addresses strictly increase along the chain (nodes are allocated in
list order), and every node after the head holds an item. -/
def Chain (heap : Heap T) : Nat → List T → Nat → Prop
  | a, [], w => a = w
  | a, x :: xs, w => ∃ node b bnode,
      heap[a]? = some (some node) ∧ node.next = some b ∧ a < b ∧
      heap[b]? = some (some bnode) ∧ bnode.item = some x ∧ Chain heap b xs w

end Unbounded

namespace Unbounded.Spsc

/-- State of `unbounded::spsc::Queue<T>`: the owner-only read and write
node pointers, the two disconnection counters, and the node heap. -/
structure Queue (T : Type) where
  write : Nat
  consumer : Nat
  read : Nat
  producer : Nat
  heap : Heap T
deriving DecidableEq

/-- `Queue::new` allocates the sentinel node and points both cursors at
it. -/
def Queue.new (T : Type) : Queue T :=
  { write := 0, consumer := 1, read := 0, producer := 1,
    heap := [some { item := none, next := none }] }

/-- `Queue::produce`: check the consumer counter, allocate a node
carrying the item, link it behind the write node and advance `write`.
Dereferencing a dangling write pointer is undefined behaviour (`none`). -/
def Queue.produce (q : Queue T) (item : T) : Option ((Except (ProduceError T) Unit) × Queue T) :=
  if q.consumer = 0 then some (.error (.Disconnected item), q)
  else
    let node := q.heap.length
    let heap1 := q.heap ++ [some { item := some item, next := none }]
    match heap1[q.write]? with
    | some (some wnode) =>
        let heap2 := heap1.set q.write (some { wnode with next := some node })
        some (.ok (), { q with heap := heap2, write := node })
    | _ => none

/-- `Queue::consume`: follow `read.next`; if null report empty or
disconnected, otherwise take the item out of the next node
(`item.take().unwrap()`; unwrapping `None` panics, modelled as `none`),
free the old sentinel and advance `read`. -/
def Queue.consume (q : Queue T) : Option ((Except ConsumeError T) × Queue T) :=
  match q.heap[q.read]? with
  | some (some rnode) =>
    match rnode.next with
    | none =>
        if q.producer = 0 then some (.error .Disconnected, q) else some (.error .Empty, q)
    | some next =>
      match q.heap[next]? with
      | some (some nnode) =>
        match nnode.item with
        | none => none
        | some item =>
            let heap2 := (q.heap.set next (some { nnode with item := none })).set q.read none
            some (.ok item, { q with heap := heap2, read := next })
      | _ => none
  | _ => none

/-- `Drop for Producer` stores 0 into the producer counter. -/
def Queue.producerDrop (q : Queue T) : Queue T := { q with producer := 0 }

/-- `Drop for Consumer` stores 0 into the consumer counter. -/
def Queue.consumerDrop (q : Queue T) : Queue T := { q with consumer := 0 }

/-- `channel()` returns the shared queue both handles reference. -/
def channel (T : Type) : Queue T := Queue.new T

/-- The unbounded SPSC queue as a sequential state machine. -/
def model (T : Type) : QueueModel T (Queue T) :=
  { produce := Queue.produce,
    consume := Queue.consume,
    dropP := Queue.producerDrop,
    dropC := Queue.consumerDrop }

end Unbounded.Spsc

namespace Unbounded.Mpmc

/-- State of `unbounded::mpmc::Queue<T>`: the atomic read and write node
pointers, the two disconnection counters, the node heap and the
clone-slot pool (`threads`). The hazard-pointer bookkeeping
(`Pointers::mark`, `clear`, `retire`) only defers reclamation and has no
observable effect in a sequential execution, so a consumed sentinel is
simply left retired in the heap. -/
structure Queue (T : Type) where
  write : Nat
  producers : Nat
  read : Nat
  consumers : Nat
  heap : Heap T
  threads : List Nat
deriving DecidableEq

/-- `Queue::new(threads)` allocates the sentinel, points both cursors at
it and seeds the clone-slot pool with `(2..threads).collect()`. -/
def Queue.new (T : Type) (threads : Nat) : Queue T :=
  { write := 0, producers := 1, read := 0, consumers := 1,
    heap := [some { item := none, next := none }],
    threads := List.range' 2 (threads - 2) }

/-- One iteration of the `Queue::produce` retry loop: allocate the node,
read the write pointer (hazard-marked), and link the node behind it. In
a sequential execution the re-read of `write` agrees and the CAS
succeeds; a lagging tail (`write.next` non-null) cannot occur, and that
retrying path is `none`. -/
def Queue.produce (q : Queue T) (item : T) : Option ((Except (ProduceError T) Unit) × Queue T) :=
  if q.consumers = 0 then some (.error (.Disconnected item), q)
  else
    let node := q.heap.length
    let heap1 := q.heap ++ [some { item := some item, next := none }]
    match heap1[q.write]? with
    | some (some wnode) =>
      match wnode.next with
      | none =>
          let heap2 := heap1.set q.write (some { wnode with next := some node })
          some (.ok (), { q with heap := heap2, write := node })
      | some _ => none
    | _ => none

/-- One iteration of the `Queue::consume` retry loop: if the read and
write pointers are equal report empty or disconnected; otherwise follow
`read.next`, swing `read` (the CAS succeeds sequentially), take the item
out of the new sentinel (`item.take().unwrap()`; unwrapping `None`
panics, modelled as `none`) and retire the old sentinel. -/
def Queue.consume (q : Queue T) : Option ((Except ConsumeError T) × Queue T) :=
  let read := q.read
  if read = q.write then
    if q.producers = 0 then some (.error .Disconnected, q) else some (.error .Empty, q)
  else
    match q.heap[read]? with
    | some (some rnode) =>
      match rnode.next with
      | none => none
      | some next =>
        match q.heap[next]? with
        | some (some nnode) =>
          match nnode.item with
          | none => none
          | some item =>
              let heap2 := q.heap.set next (some { nnode with item := none })
              some (.ok item, { q with heap := heap2, read := next })
        | _ => none
    | _ => none

/-- `Producer::try_clone` pops a thread-slot id from the pool and bumps
the producer counter. -/
def Queue.tryCloneProducer (q : Queue T) : Option (Nat × Queue T) :=
  match q.threads.getLast? with
  | some thread =>
      some (thread, { q with threads := q.threads.dropLast, producers := wadd q.producers 1 })
  | none => none

/-- `Consumer::try_clone` pops a thread-slot id from the pool and bumps
the consumer counter. -/
def Queue.tryCloneConsumer (q : Queue T) : Option (Nat × Queue T) :=
  match q.threads.getLast? with
  | some thread =>
      some (thread, { q with threads := q.threads.dropLast, consumers := wadd q.consumers 1 })
  | none => none

/-- `Drop for Producer` pushes its thread-slot id back and decrements
the producer counter. -/
def Queue.producerDrop (q : Queue T) (thread : Nat) : Queue T :=
  { q with threads := q.threads ++ [thread], producers := wsub q.producers 1 }

/-- `Drop for Consumer` pushes its thread-slot id back and decrements
the consumer counter. -/
def Queue.consumerDrop (q : Queue T) (thread : Nat) : Queue T :=
  { q with threads := q.threads ++ [thread], consumers := wsub q.consumers 1 }

/-- `channel(clones)` builds the queue over `clones + 2` thread slots
and hands thread-slot ids 0 and 1 to the initial producer and consumer.
The addition `clones + 2` happens in `usize`, so it wraps modulo the
word width: at `clones = usize::MAX - 1` or `usize::MAX` the pool range
`(2..threads)` is empty and no clone ever succeeds. -/
def channel (T : Type) (clones : Nat) : Nat × Nat × Queue T :=
  (0, 1, Queue.new T (wadd clones 2))

/-- The unbounded MPMC queue as a sequential state machine (the initial
producer uses thread slot 0 and the initial consumer thread slot 1). -/
def model (T : Type) : QueueModel T (Queue T) :=
  { produce := Queue.produce,
    consume := Queue.consume,
    dropP := fun q => q.producerDrop 0,
    dropC := fun q => q.consumerDrop 1 }

end Unbounded.Mpmc

namespace Bounded.Spsc

/-- Abstraction invariant for the bounded SPSC ring: `acc` lists every
accepted item, `m` of which have been consumed. The cursors are the
total counts modulo the word width, the cached cursors are earlier
snapshots of the opposite cursor that keep the pending count within the
ring size, and the cells holding the pending items are initialised. -/
structure Inv (q : Queue T) (acc : List T) (m : Nat) : Prop where
  hpow : ∃ k, k ≤ 63 ∧ q.buffer.length = 2 ^ k
  hmn : m ≤ acc.length
  hcap : acc.length - m ≤ q.buffer.length
  hwrite : q.write = acc.length % UMOD
  hread : q.read = m % UMOD
  hrc : ∃ mr, mr ≤ m ∧ acc.length - mr ≤ q.buffer.length ∧ q.read_copy = mr % UMOD
  hwc : ∃ nw, m ≤ nw ∧ nw ≤ acc.length ∧ q.write_copy = nw % UMOD
  hbuf : ∀ j, m ≤ j → j < acc.length → q.buffer[j % q.buffer.length]? = some acc[j]?

end Bounded.Spsc

namespace Bounded.Mpmc

/-- Per-slot invariant of the ticket protocol at consumption count `m`:
either the slot holds the pending accepted item of the unique pending
ticket `j` mapping to it (sequence `j + 1`), or it is empty and its
sequence is the unique ticket in `[n, n + S)` mapping to it, the next
writer ticket for this slot. -/
def SlotOk (acc : List T) (m S i : Nat) (slot : Slot T) : Prop :=
  (∃ j, m ≤ j ∧ j < acc.length ∧ j % S = i ∧ slot.item = acc[j]? ∧
    slot.sequence = (j + 1) % UMOD) ∨
  ((∀ j, m ≤ j → j < acc.length → j % S ≠ i) ∧ slot.item = none ∧
    ∃ t, acc.length ≤ t ∧ t < acc.length + S ∧ t % S = i ∧ slot.sequence = t % UMOD)

/-- Abstraction invariant for the bounded MPMC ring (sizes of at least
two): cursors are the ticket counts modulo the word width and every
slot satisfies the ticket protocol. -/
structure Inv (q : Queue T) (acc : List T) (m : Nat) : Prop where
  hpow : ∃ k, 1 ≤ k ∧ k ≤ 63 ∧ q.buffer.length = 2 ^ k
  hmn : m ≤ acc.length
  hcap : acc.length - m ≤ q.buffer.length
  hwrite : q.write = acc.length % UMOD
  hread : q.read = m % UMOD
  hslot : ∀ i, i < q.buffer.length → ∃ slot, q.buffer[i]? = some slot ∧
    SlotOk acc m q.buffer.length i slot

end Bounded.Mpmc

namespace Unbounded.Spsc

/-- Abstraction invariant for the unbounded SPSC list: the read pointer
designates the sentinel (whose item slot is empty), following the next
chain passes exactly the pending items and ends at the write node, and
the write node has a null next pointer. -/
structure Inv (q : Queue T) (acc : List T) (m : Nat) : Prop where
  hmn : m ≤ acc.length
  hchain : Unbounded.Chain q.heap q.read (acc.drop m) q.write
  hsent : ∃ rnode, q.heap[q.read]? = some (some rnode) ∧ rnode.item = none
  hwnode : ∃ wnode, q.heap[q.write]? = some (some wnode) ∧ wnode.next = none

end Unbounded.Spsc

namespace Unbounded.Mpmc

/-- Abstraction invariant for the unbounded MPMC list: identical in
shape to the SPSC one; the clone-slot pool does not affect the queue
operations. -/
structure Inv (q : Queue T) (acc : List T) (m : Nat) : Prop where
  hmn : m ≤ acc.length
  hchain : Unbounded.Chain q.heap q.read (acc.drop m) q.write
  hsent : ∃ rnode, q.heap[q.read]? = some (some rnode) ∧ rnode.item = none
  hwnode : ∃ wnode, q.heap[q.write]? = some (some wnode) ∧ wnode.next = none

end Unbounded.Mpmc

/-- A try_clone attempt on one side of the unbounded MPMC channel. -/
inductive CloneOp where
  | prod
  | cons
deriving DecidableEq

namespace Unbounded.Mpmc

/-- Dispatch a clone attempt to the producer or consumer side. -/
def tryCloneSide : CloneOp → Queue T → Option (Nat × Queue T)
  | .prod, q => q.tryCloneProducer
  | .cons, q => q.tryCloneConsumer

/-- Run a sequence of try_clone attempts (no drops in between),
collecting the granted thread-slot ids in order. A failed attempt
leaves the queue unchanged. -/
def runClones : List CloneOp → Queue T → List Nat × Queue T
  | [], q => ([], q)
  | op :: ops, q =>
      match tryCloneSide op q with
      | some (t, q2) =>
          let r := runClones ops q2
          (t :: r.1, r.2)
      | none => runClones ops q

end Unbounded.Mpmc

/-- Soundness data for a queue model with respect to an abstraction
relation `Inv q acc m`: `acc` is the list of items accepted so far and
`m` counts how many of them have been consumed. Every operation from an
invariant state completes, produce either accepts the item or rejects
it, and consume yields exactly the oldest unconsumed accepted item. -/
structure Sound (M : QueueModel T Q) (Inv : Q → List T → Nat → Prop) : Prop where
  hm : ∀ q acc m, Inv q acc m → m ≤ acc.length
  hprod : ∀ q acc m item, Inv q acc m → ∃ r q2, M.produce q item = some (r, q2) ∧
      ((r = .ok () ∧ Inv q2 (acc ++ [item]) m) ∨ (∃ e, r = .error e ∧ Inv q2 acc m))
  hcons : ∀ q acc m, Inv q acc m → ∃ q2,
      if m < acc.length then
        ∃ x, acc[m]? = some x ∧ M.consume q = some (.ok x, q2) ∧ Inv q2 acc (m + 1)
      else ∃ e, M.consume q = some (.error e, q2) ∧ Inv q2 acc m
  hdropP : ∀ q acc m, Inv q acc m → Inv (M.dropP q) acc m
  hdropC : ∀ q acc m, Inv q acc m → Inv (M.dropC q) acc m

/-- Lossless FIFO delivery through one producer and one consumer handle:
after any sequential interleaving of operations, the successfully
consumed items so far followed by the items obtained by draining the
queue equal, in order, exactly the items accepted by successful produce
calls. -/
def FifoDrain (M : QueueModel T Q) (q0 : Q) : Prop :=
  ∀ ops : List (Op T), ∃ evts q evts2 q2,
    M.run ops q0 = some (evts, q) ∧
    M.run (List.replicate (acceptedOf evts).length .consume) q = some (evts2, q2) ∧
    consumedOf evts ++ consumedOf evts2 = acceptedOf evts

example :
    ((Bounded.Spsc.model Nat).run
      [.produce 1, .produce 2, .produce 3, .produce 4, .consume, .consume, .consume, .consume]
      (Bounded.Spsc.Queue.new Nat 4)).map Prod.fst =
    some [.accepted 1, .accepted 2, .accepted 3, .accepted 4,
          .consumed 1, .consumed 2, .consumed 3, .consumed 4] := by decide

example :
    ((Bounded.Spsc.model Nat).run
      [.produce 10, .produce 20, .produce 30, .consume, .produce 30]
      (Bounded.Spsc.Queue.new Nat 2)).map Prod.fst =
    some [.accepted 10, .accepted 20, .rejected (.Full 30), .consumed 10, .accepted 30] := by
  decide

example :
    ((Bounded.Mpmc.model Nat).run [.produce 7, .dropProducer, .consume, .consume]
      (Bounded.Mpmc.Queue.new Nat 2)).map Prod.fst =
    some [.accepted 7, .consumed 7, .failed .Disconnected] := by decide

example :
    ((Bounded.Mpmc.model Nat).run [.produce 1, .produce 2]
      (Bounded.Mpmc.Queue.new Nat 1)).map Prod.fst =
    some [.accepted 1, .accepted 2] := by decide

example :
    (Bounded.Mpmc.model Nat).run [.produce 1, .produce 2, .consume]
      (Bounded.Mpmc.Queue.new Nat 1) = none := by decide

example :
    ((Unbounded.Spsc.model Nat).run
      [.produce 1, .produce 2, .consume, .produce 3, .consume, .consume, .consume]
      (Unbounded.Spsc.Queue.new Nat)).map Prod.fst =
    some [.accepted 1, .accepted 2, .consumed 1, .accepted 3,
          .consumed 2, .consumed 3, .failed .Empty] := by decide

example :
    ((Unbounded.Mpmc.model Nat).run
      [.produce 5, .consume, .consume, .dropProducer, .consume]
      ((Unbounded.Mpmc.channel Nat 0).2.2)).map Prod.fst =
    some [.accepted 5, .consumed 5, .failed .Empty, .failed .Disconnected] := by decide

example : ((Unbounded.Mpmc.channel Nat 3).2.2).threads = [2, 3, 4] := by decide

theorem umod_pos : 0 < UMOD := by unfold UMOD; omega

theorem wadd_one (a : Nat) : wadd (a % UMOD) 1 = (a + 1) % UMOD := by
  unfold wadd UMOD; omega

theorem wsub_of_le (a b : Nat) (h : b ≤ a) (h2 : a - b < UMOD) :
    wsub (a % UMOD) (b % UMOD) = a - b := by
  unfold UMOD at h2
  unfold wsub UMOD
  omega

theorem umod_eq_iff (a b : Nat) (h : a ≤ b) (h2 : b - a < UMOD) :
    a % UMOD = b % UMOD ↔ a = b := by
  unfold UMOD at h2 ⊢; omega

theorem wrapping_index_mod (n k : Nat) (hk : k ≤ 64) :
    wrapping_index (n % UMOD) (2 ^ k) = n % 2 ^ k := by
  unfold wrapping_index UMOD
  rw [Nat.and_pow_two_sub_one_eq_mod, Nat.mod_mod_of_dvd _ (Nat.pow_dvd_pow 2 hk)]

theorem ival_of_lt (a : Nat) (h : a < 2 ^ 63) : ival a = (a : Int) := by
  unfold ival; rw [if_pos h]

theorem ival_of_ge (a : Nat) (h : 2 ^ 63 ≤ a) : ival a = (a : Int) - 2 ^ 64 := by
  unfold ival; rw [if_neg (by omega)]

theorem wsubi_self (a : Nat) : wsubi (a % UMOD) (a % UMOD) = 0 := by
  have h : wsub (a % UMOD) (a % UMOD) = 0 := by unfold wsub UMOD; omega
  unfold wsubi
  rw [h, ival_of_lt 0 (by omega)]
  rfl

theorem wsubi_pred (a : Nat) : wsubi (a % UMOD) ((a + 1) % UMOD) = -1 := by
  have h : wsub (a % UMOD) ((a + 1) % UMOD) = UMOD - 1 := by unfold wsub UMOD; omega
  unfold wsubi
  rw [h, ival_of_ge (UMOD - 1) (by unfold UMOD; omega)]
  have h2 : 1 ≤ UMOD := by unfold UMOD; omega
  have h3 : UMOD = 2 ^ 64 := rfl
  omega

theorem wsubi_full (n S : Nat) (hS : 2 ≤ S) (hS2 : S ≤ 2 ^ 63) (hn : S ≤ n) :
    wsubi ((n - S + 1) % UMOD) (n % UMOD) = 1 - (S : Int) := by
  have h : wsub ((n - S + 1) % UMOD) (n % UMOD) = UMOD + 1 - S := by unfold wsub UMOD; omega
  unfold wsubi
  rw [h, ival_of_ge (UMOD + 1 - S) (by unfold UMOD; omega)]
  have hS3 : S ≤ UMOD := by unfold UMOD; omega
  have h3 : UMOD = 2 ^ 64 := rfl
  omega

theorem wadd_size (m S : Nat) (hS : 1 ≤ S) :
    wadd (wadd (m % UMOD) 1) (S - 1) = (m + S) % UMOD := by
  unfold wadd UMOD; omega

theorem drop_take_cons (l : List α) (m m2 : Nat) (x : α) (hx : l[m]? = some x)
    (hm : m + 1 ≤ m2) :
    (l.drop m).take (m2 - m) = x :: (l.drop (m + 1)).take (m2 - (m + 1)) := by
  have hlt : m < l.length := by
    by_contra hcon
    rw [List.getElem?_eq_none (by omega)] at hx
    cases hx
  have hget : l[m] = x := by
    rw [List.getElem?_eq_getElem hlt] at hx
    exact Option.some.inj hx
  rw [List.drop_eq_getElem_cons hlt, hget]
  have h2 : m2 - m = (m2 - (m + 1)) + 1 := by omega
  rw [h2, List.take_succ_cons]

theorem run_sound {M : QueueModel T Q} {Inv : Q → List T → Nat → Prop} (S : Sound M Inv) :
    ∀ (ops : List (Op T)) (q : Q) (acc : List T) (m : Nat), Inv q acc m →
    ∃ evts q2 acc2 m2, M.run ops q = some (evts, q2) ∧ Inv q2 (acc ++ acc2) m2 ∧
      acceptedOf evts = acc2 ∧ m ≤ m2 ∧ m2 ≤ acc.length + acc2.length ∧
      consumedOf evts = ((acc ++ acc2).drop m).take (m2 - m) := by
  intro ops
  induction ops with
  | nil =>
      intro q acc m h
      refine ⟨[], q, [], m, rfl, by simpa using h, rfl, le_refl m, ?_, ?_⟩
      · simpa using S.hm q acc m h
      · simp [consumedOf]
  | cons op ops ih =>
      intro q acc m h
      cases op with
      | produce item =>
          obtain ⟨r, q2, hstep, hcase⟩ := S.hprod q acc m item h
          cases hcase with
          | inl hok =>
              obtain ⟨hr, hinv⟩ := hok
              obtain ⟨evts, q3, acc2, m2, hrun, hinv2, hacc, hmle, hm2, hc⟩ :=
                ih q2 (acc ++ [item]) m hinv
              refine ⟨.accepted item :: evts, q3, item :: acc2, m2, ?_, ?_, ?_, hmle, ?_, ?_⟩
              · simp [QueueModel.run, QueueModel.step, hstep, hr, hrun]
              · simpa [List.append_assoc] using hinv2
              · simp only [acceptedOf, List.filterMap_cons] at hacc ⊢
                rw [hacc]
              · simp only [List.length_append, List.length_cons, List.length_nil] at hm2 ⊢
                omega
              · simp only [consumedOf, List.filterMap_cons] at hc ⊢
                simpa [List.append_assoc] using hc
          | inr herr =>
              obtain ⟨e, hr, hinv⟩ := herr
              obtain ⟨evts, q3, acc2, m2, hrun, hinv2, hacc, hmle, hm2, hc⟩ :=
                ih q2 acc m hinv
              refine ⟨.rejected e :: evts, q3, acc2, m2, ?_, hinv2, ?_, hmle, hm2, ?_⟩
              · simp [QueueModel.run, QueueModel.step, hstep, hr, hrun]
              · simp only [acceptedOf, List.filterMap_cons] at hacc ⊢
                rw [hacc]
              · simp only [consumedOf, List.filterMap_cons] at hc ⊢
                exact hc
      | consume =>
          obtain ⟨q2, hq2⟩ := S.hcons q acc m h
          by_cases hlt : m < acc.length
          · rw [if_pos hlt] at hq2
            obtain ⟨x, hx, hstep, hinv⟩ := hq2
            obtain ⟨evts, q3, acc2, m2, hrun, hinv2, hacc, hmle, hm2, hc⟩ :=
              ih q2 acc (m + 1) hinv
            refine ⟨.consumed x :: evts, q3, acc2, m2, ?_, hinv2, ?_, by omega, hm2, ?_⟩
            · simp [QueueModel.run, QueueModel.step, hstep, hrun]
            · simp only [acceptedOf, List.filterMap_cons] at hacc ⊢
              rw [hacc]
            · simp only [consumedOf, List.filterMap_cons] at hc ⊢
              have hx2 : (acc ++ acc2)[m]? = some x := by
                rw [List.getElem?_append_left hlt]
                exact hx
              rw [drop_take_cons (acc ++ acc2) m m2 x hx2 hmle, hc]
          · rw [if_neg hlt] at hq2
            obtain ⟨e, hstep, hinv⟩ := hq2
            obtain ⟨evts, q3, acc2, m2, hrun, hinv2, hacc, hmle, hm2, hc⟩ :=
              ih q2 acc m hinv
            refine ⟨.failed e :: evts, q3, acc2, m2, ?_, hinv2, ?_, hmle, hm2, ?_⟩
            · simp [QueueModel.run, QueueModel.step, hstep, hrun]
            · simp only [acceptedOf, List.filterMap_cons] at hacc ⊢
              rw [hacc]
            · simp only [consumedOf, List.filterMap_cons] at hc ⊢
              exact hc
      | dropProducer =>
          obtain ⟨evts, q3, acc2, m2, hrun, hinv2, hacc, hmle, hm2, hc⟩ :=
            ih (M.dropP q) acc m (S.hdropP q acc m h)
          exact ⟨evts, q3, acc2, m2, by simp [QueueModel.run, QueueModel.step, hrun],
            hinv2, hacc, hmle, hm2, hc⟩
      | dropConsumer =>
          obtain ⟨evts, q3, acc2, m2, hrun, hinv2, hacc, hmle, hm2, hc⟩ :=
            ih (M.dropC q) acc m (S.hdropC q acc m h)
          exact ⟨evts, q3, acc2, m2, by simp [QueueModel.run, QueueModel.step, hrun],
            hinv2, hacc, hmle, hm2, hc⟩

theorem run_drain {M : QueueModel T Q} {Inv : Q → List T → Nat → Prop} (S : Sound M Inv) :
    ∀ (cnt : Nat) (q : Q) (acc : List T) (m : Nat), Inv q acc m → acc.length - m ≤ cnt →
    ∃ evts q2, M.run (List.replicate cnt .consume) q = some (evts, q2) ∧
      consumedOf evts = acc.drop m := by
  intro cnt
  induction cnt with
  | zero =>
      intro q acc m h hcnt
      have hle : m ≤ acc.length := S.hm q acc m h
      refine ⟨[], q, rfl, ?_⟩
      rw [List.drop_eq_nil_of_le (by omega)]
      simp [consumedOf]
  | succ cnt ih =>
      intro q acc m h hcnt
      obtain ⟨q2, hq2⟩ := S.hcons q acc m h
      by_cases hlt : m < acc.length
      · rw [if_pos hlt] at hq2
        obtain ⟨x, hx, hstep, hinv⟩ := hq2
        obtain ⟨evts, q3, hrun, hc⟩ := ih q2 acc (m + 1) hinv (by omega)
        refine ⟨.consumed x :: evts, q3, ?_, ?_⟩
        · simp [List.replicate_succ, QueueModel.run, QueueModel.step, hstep, hrun]
        · simp only [consumedOf, List.filterMap_cons]
          rw [hc, List.drop_eq_getElem_cons hlt]
          have hget : acc[m] = x := by
            rw [List.getElem?_eq_getElem hlt] at hx
            exact Option.some.inj hx
          rw [hget]
      · rw [if_neg hlt] at hq2
        obtain ⟨e, hstep, hinv⟩ := hq2
        obtain ⟨evts, q3, hrun, hc⟩ := ih q2 acc m hinv (by omega)
        refine ⟨.failed e :: evts, q3, ?_, ?_⟩
        · simp [List.replicate_succ, QueueModel.run, QueueModel.step, hstep, hrun]
        · simp only [consumedOf, List.filterMap_cons]
          exact hc

theorem mod_eq_dvd_sub {a b S : Nat} (h : a ≤ b) (hm : a % S = b % S) : S ∣ (b - a) :=
  (Nat.modEq_iff_dvd' h).mp hm

theorem mod_ne_of_between {a b S : Nat} (h : a < b) (h2 : b - a < S) : a % S ≠ b % S := by
  intro heq
  have hd := mod_eq_dvd_sub (Nat.le_of_lt h) heq
  have := Nat.le_of_dvd (by omega) hd
  omega

theorem fifo_of_sound {M : QueueModel T Q} {Inv : Q → List T → Nat → Prop} (S : Sound M Inv)
    (q0 : Q) (hinit : Inv q0 [] 0) : FifoDrain M q0 := by
  intro ops
  obtain ⟨evts, q2, acc2, m2, hrun, hinv2, hacc, hmle, hm2, hc⟩ :=
    run_sound S ops q0 [] 0 hinit
  simp only [List.nil_append, List.length_nil, Nat.zero_add, Nat.sub_zero,
    List.drop_zero] at hinv2 hm2 hc
  obtain ⟨evts2, q3, hrun2, hc2⟩ := run_drain S acc2.length q2 acc2 m2 hinv2 (by omega)
  refine ⟨evts, q2, evts2, q3, hrun, ?_, ?_⟩
  · rw [hacc]
    exact hrun2
  · rw [hc, hc2, hacc, List.take_append_drop]

theorem bspsc_size_lt {T : Type} {q : Bounded.Spsc.Queue T} {acc : List T} {m : Nat}
    (h : Bounded.Spsc.Inv q acc m) : q.buffer.length < UMOD := by
  obtain ⟨k, hk, hS⟩ := h.hpow
  have : (2 : Nat) ^ k ≤ 2 ^ 63 := Nat.pow_le_pow_right (by omega) hk
  unfold UMOD
  omega

theorem bspsc_index {T : Type} {q : Bounded.Spsc.Queue T} {acc : List T} {m : Nat}
    (h : Bounded.Spsc.Inv q acc m) (a : Nat) :
    wrapping_index (a % UMOD) q.buffer.length = a % q.buffer.length := by
  obtain ⟨k, hk, hS⟩ := h.hpow
  rw [hS]
  exact wrapping_index_mod a k (by omega)

theorem bspsc_produce_disc {T : Type} (q : Bounded.Spsc.Queue T) (item : T)
    (hc : q.consumer = 0) :
    q.produce item = (.error (.Disconnected item), q) := by
  simp [Bounded.Spsc.Queue.produce, hc]

theorem bspsc_produce_full {T : Type} {q : Bounded.Spsc.Queue T} {acc : List T} {m : Nat}
    (h : Bounded.Spsc.Inv q acc m) (item : T) (hc : ¬q.consumer = 0)
    (hfull : acc.length - m = q.buffer.length) :
    q.produce item = (.error (.Full item), { q with read_copy := q.read }) ∧
    Bounded.Spsc.Inv { q with read_copy := q.read } acc m := by
  have hU := bspsc_size_lt h
  have hmn := h.hmn
  obtain ⟨mr, hmr, hmrS, hrc⟩ := h.hrc
  have e1 : wsub q.write q.read_copy = q.buffer.length := by
    rw [h.hwrite, hrc, wsub_of_le _ _ (by omega) (by omega)]
    omega
  have e2 : wsub q.write q.read = q.buffer.length := by
    rw [h.hwrite, h.hread, wsub_of_le _ _ (by omega) (by omega)]
    omega
  constructor
  · simp [Bounded.Spsc.Queue.produce, Bounded.Spsc.Queue.size, hc, e1, e2]
  · exact ⟨h.hpow, h.hmn, h.hcap, h.hwrite, h.hread,
      ⟨m, le_refl m, (show acc.length - m ≤ q.buffer.length by omega), h.hread⟩,
      h.hwc, h.hbuf⟩

theorem bspsc_inv_set {T : Type} {q : Bounded.Spsc.Queue T} {acc : List T} {m : Nat}
    (h : Bounded.Spsc.Inv q acc m) (item : T)
    (rc2 c2 p2 : Nat) (mr2 : Nat) (hmr2 : mr2 ≤ m)
    (hmr2S : acc.length + 1 - mr2 ≤ q.buffer.length) (hrc2 : rc2 = mr2 % UMOD) :
    Bounded.Spsc.Inv
      { write := wadd q.write 1, read_copy := rc2, consumer := c2, read := q.read,
        write_copy := q.write_copy, producer := p2,
        buffer := q.buffer.set (wrapping_index q.write q.buffer.length) (some item) }
      (acc ++ [item]) m := by
  obtain ⟨k, hk, hS⟩ := h.hpow
  have hmn := h.hmn
  have hSpos : 0 < q.buffer.length := by rw [hS]; exact Nat.pos_pow_of_pos k (by omega)
  have hlen : (acc ++ [item]).length = acc.length + 1 := by
    simp [List.length_append]
  have hidx : wrapping_index q.write q.buffer.length = acc.length % q.buffer.length := by
    rw [h.hwrite]
    exact bspsc_index h acc.length
  have hsetlen : (q.buffer.set (wrapping_index q.write q.buffer.length) (some item)).length =
      q.buffer.length := by simp
  refine ⟨⟨k, hk, by rw [hsetlen]; exact hS⟩, ?_, ?_, ?_, h.hread, ?_, ?_, ?_⟩
  · rw [hlen]; omega
  · rw [hlen, hsetlen]; omega
  · rw [hlen, h.hwrite, wadd_one]
  · exact ⟨mr2, by omega, by rw [hlen, hsetlen]; omega, hrc2⟩
  · obtain ⟨nw, hmnw, hnwn, hwc⟩ := h.hwc
    exact ⟨nw, hmnw, by rw [hlen]; omega, hwc⟩
  · intro j hmj hj
    rw [hlen] at hj
    rw [hsetlen]
    by_cases hjn : j = acc.length
    · subst hjn
      rw [hidx, List.getElem?_set_self (Nat.mod_lt _ hSpos), List.getElem?_concat_length]
    · have hjlt : j < acc.length := by omega
      have hne : acc.length % q.buffer.length ≠ j % q.buffer.length := by
        exact (mod_ne_of_between hjlt (by omega)).symm
      rw [hidx, List.getElem?_set_ne hne, h.hbuf j hmj hjlt,
        List.getElem?_append_left hjlt]

theorem bspsc_produce_ok {T : Type} {q : Bounded.Spsc.Queue T} {acc : List T} {m : Nat}
    (h : Bounded.Spsc.Inv q acc m) (item : T) (hc : ¬q.consumer = 0)
    (hlt : acc.length - m < q.buffer.length) :
    ∃ q2, q.produce item = (.ok (), q2) ∧ Bounded.Spsc.Inv q2 (acc ++ [item]) m := by
  have hU := bspsc_size_lt h
  have hmn := h.hmn
  obtain ⟨mr, hmr, hmrS, hrc⟩ := h.hrc
  have c1 : wsub q.write q.read_copy = acc.length - mr := by
    rw [h.hwrite, hrc]
    exact wsub_of_le _ _ (by omega) (by omega)
  by_cases hb : acc.length - mr = q.buffer.length
  · have e1 : wsub q.write q.read_copy = q.buffer.length := by rw [c1, hb]
    have ne2 : ¬wsub q.write q.read = q.buffer.length := by
      rw [h.hwrite, h.hread, wsub_of_le _ _ (by omega) (by omega)]
      omega
    refine ⟨Bounded.Spsc.Queue.mk (wadd q.write 1) q.read q.consumer q.read q.write_copy
      q.producer (q.buffer.set (wrapping_index q.write q.buffer.length) (some item)),
      by simp [Bounded.Spsc.Queue.produce, Bounded.Spsc.Queue.size, hc, e1, ne2], ?_⟩
    exact bspsc_inv_set h item q.read q.consumer q.producer m (le_refl m)
      (by omega) h.hread
  · have ne1 : ¬wsub q.write q.read_copy = q.buffer.length := by rw [c1]; exact hb
    refine ⟨Bounded.Spsc.Queue.mk (wadd q.write 1) q.read_copy q.consumer q.read q.write_copy
      q.producer (q.buffer.set (wrapping_index q.write q.buffer.length) (some item)),
      by simp [Bounded.Spsc.Queue.produce, Bounded.Spsc.Queue.size, hc, ne1], ?_⟩
    exact bspsc_inv_set h item q.read_copy q.consumer q.producer mr hmr
      (by omega) hrc

theorem bspsc_inv_consume {T : Type} {q : Bounded.Spsc.Queue T} {acc : List T} {m : Nat}
    (h : Bounded.Spsc.Inv q acc m) (hne : m < acc.length)
    (wc2 c2 p2 nw2 : Nat) (hnw2a : m + 1 ≤ nw2) (hnw2b : nw2 ≤ acc.length)
    (hwc2 : wc2 = nw2 % UMOD) :
    Bounded.Spsc.Inv
      (Bounded.Spsc.Queue.mk q.write q.read_copy c2 (wadd q.read 1) wc2 p2
        (q.buffer.set (wrapping_index q.read q.buffer.length) none))
      acc (m + 1) := by
  obtain ⟨k, hk, hS⟩ := h.hpow
  have hcap := h.hcap
  obtain ⟨mr, hmr, hmrS, hrc⟩ := h.hrc
  have hidx : wrapping_index q.read q.buffer.length = m % q.buffer.length := by
    rw [h.hread]
    exact bspsc_index h m
  have hsetlen : (q.buffer.set (wrapping_index q.read q.buffer.length) none).length =
      q.buffer.length := by simp
  refine ⟨⟨k, hk, by rw [hsetlen]; exact hS⟩, hne, ?_, h.hwrite, ?_, ?_, ?_, ?_⟩
  · rw [hsetlen]; omega
  · rw [h.hread, wadd_one]
  · exact ⟨mr, by omega, by rw [hsetlen]; omega, hrc⟩
  · exact ⟨nw2, hnw2a, hnw2b, hwc2⟩
  · intro j hmj hj
    rw [hsetlen, hidx]
    have hne2 : m % q.buffer.length ≠ j % q.buffer.length :=
      mod_ne_of_between (by omega) (by omega)
    rw [List.getElem?_set_ne hne2]
    exact h.hbuf j (by omega) hj

theorem bspsc_consume_ok {T : Type} {q : Bounded.Spsc.Queue T} {acc : List T} {m : Nat}
    (h : Bounded.Spsc.Inv q acc m) (hne : m < acc.length) :
    ∃ x q2, acc[m]? = some x ∧ q.consume = some (.ok x, q2) ∧
      Bounded.Spsc.Inv q2 acc (m + 1) := by
  have hU := bspsc_size_lt h
  have hcap := h.hcap
  obtain ⟨nw, hmnw, hnwn, hwc⟩ := h.hwc
  have hidx : wrapping_index q.read q.buffer.length = m % q.buffer.length := by
    rw [h.hread]
    exact bspsc_index h m
  have hcell : q.buffer[wrapping_index q.read q.buffer.length]? = some acc[m]? := by
    rw [hidx]
    exact h.hbuf m (le_refl m) hne
  have hx : acc[m]? = some acc[m] := List.getElem?_eq_getElem hne
  rw [hx] at hcell
  by_cases hmnw2 : m = nw
  · have e1 : q.read = q.write_copy := by
      rw [h.hread, hwc, hmnw2]
    have ne2 : ¬q.read = q.write := by
      rw [h.hread, h.hwrite]
      intro hcon
      have := (umod_eq_iff m acc.length (by omega) (by unfold UMOD at hU ⊢; omega)).mp hcon
      omega
    refine ⟨acc[m], Bounded.Spsc.Queue.mk q.write q.read_copy q.consumer (wadd q.read 1)
      q.write q.producer (q.buffer.set (wrapping_index q.read q.buffer.length) none),
      hx, ?_, ?_⟩
    · simp [Bounded.Spsc.Queue.consume, Bounded.Spsc.Queue.size, eq_true e1, eq_false ne2,
        hcell]
    · exact bspsc_inv_consume h hne q.write q.consumer q.producer acc.length (by omega)
        (le_refl _) h.hwrite
  · have ne1 : ¬q.read = q.write_copy := by
      rw [h.hread, hwc]
      intro hcon
      have := (umod_eq_iff m nw (by omega) (by unfold UMOD at hU ⊢; omega)).mp hcon
      omega
    refine ⟨acc[m], Bounded.Spsc.Queue.mk q.write q.read_copy q.consumer (wadd q.read 1)
      q.write_copy q.producer (q.buffer.set (wrapping_index q.read q.buffer.length) none),
      hx, ?_, ?_⟩
    · simp [Bounded.Spsc.Queue.consume, Bounded.Spsc.Queue.size, eq_false ne1, hcell]
    · exact bspsc_inv_consume h hne q.write_copy q.consumer q.producer nw (by omega)
        hnwn hwc

theorem bspsc_consume_empty {T : Type} {q : Bounded.Spsc.Queue T} {acc : List T} {m : Nat}
    (h : Bounded.Spsc.Inv q acc m) (he : ¬m < acc.length) :
    ∃ q2, q.consume =
        some (.error (if q.producer = 0 then .Disconnected else .Empty), q2) ∧
      Bounded.Spsc.Inv q2 acc m := by
  have hmn := h.hmn
  have hm : m = acc.length := by omega
  obtain ⟨nw, hmnw, hnwn, hwc⟩ := h.hwc
  have hnw : nw = m := by omega
  have e1 : q.read = q.write_copy := by
    rw [h.hread, hwc, hnw]
  have e2 : q.read = q.write := by
    rw [h.hread, h.hwrite, hm]
  refine ⟨Bounded.Spsc.Queue.mk q.write q.read_copy q.consumer q.read q.write q.producer
    q.buffer, ?_, ?_⟩
  · by_cases hp : q.producer = 0 <;>
      simp [Bounded.Spsc.Queue.consume, eq_true e1, eq_true e2, hp]
  · exact ⟨h.hpow, h.hmn, h.hcap, h.hwrite, h.hread, h.hrc,
      ⟨acc.length, by omega, le_refl _, h.hwrite⟩, h.hbuf⟩

theorem bspsc_inv_new (T : Type) (size k : Nat) (hk : k ≤ 63) (hS : size = 2 ^ k) :
    Bounded.Spsc.Inv (Bounded.Spsc.Queue.new T size) [] 0 := by
  refine ⟨⟨k, hk, by simp [Bounded.Spsc.Queue.new, hS]⟩, le_refl 0, by simp, ?_, ?_, ?_, ?_, ?_⟩
  · exact (Nat.zero_mod UMOD).symm
  · exact (Nat.zero_mod UMOD).symm
  · exact ⟨0, le_refl 0, by simp, (Nat.zero_mod UMOD).symm⟩
  · exact ⟨0, le_refl 0, le_refl 0, (Nat.zero_mod UMOD).symm⟩
  · intro j hmj hj
    simp at hj

theorem bspsc_sound (T : Type) : Sound (Bounded.Spsc.model T) Bounded.Spsc.Inv := by
  refine ⟨fun q acc m h => h.hmn, ?_, ?_, ?_, ?_⟩
  · intro q acc m item h
    by_cases hc : q.consumer = 0
    · exact ⟨.error (.Disconnected item), q,
        by simp only [Bounded.Spsc.model]; rw [bspsc_produce_disc q item hc],
        Or.inr ⟨_, rfl, h⟩⟩
    · have hcap := h.hcap
      by_cases hfull : acc.length - m = q.buffer.length
      · obtain ⟨heq, hinv⟩ := bspsc_produce_full h item hc hfull
        exact ⟨.error (.Full item), _,
          by simp only [Bounded.Spsc.model]; rw [heq], Or.inr ⟨_, rfl, hinv⟩⟩
      · obtain ⟨q2, heq, hinv⟩ := bspsc_produce_ok h item hc (by omega)
        exact ⟨.ok (), q2, by simp only [Bounded.Spsc.model]; rw [heq], Or.inl ⟨rfl, hinv⟩⟩
  · intro q acc m h
    by_cases hne : m < acc.length
    · obtain ⟨x, q2, hx, heq, hinv⟩ := bspsc_consume_ok h hne
      exact ⟨q2, by rw [if_pos hne]; exact ⟨x, hx, heq, hinv⟩⟩
    · obtain ⟨q2, heq, hinv⟩ := bspsc_consume_empty h hne
      exact ⟨q2, by rw [if_neg hne]; exact ⟨_, heq, hinv⟩⟩
  · exact fun q acc m h =>
      ⟨h.hpow, h.hmn, h.hcap, h.hwrite, h.hread, h.hrc, h.hwc, h.hbuf⟩
  · exact fun q acc m h =>
      ⟨h.hpow, h.hmn, h.hcap, h.hwrite, h.hread, h.hrc, h.hwc, h.hbuf⟩

theorem bspsc_fifo (T : Type) (size k : Nat) (hk : k ≤ 63) (hS : size = 2 ^ k) :
    FifoDrain (Bounded.Spsc.model T) (Bounded.Spsc.Queue.new T size) :=
  fifo_of_sound (bspsc_sound T) _ (bspsc_inv_new T size k hk hS)

theorem bmpmc_size_facts {T : Type} {q : Bounded.Mpmc.Queue T} {acc : List T} {m : Nat}
    (h : Bounded.Mpmc.Inv q acc m) :
    2 ≤ q.buffer.length ∧ q.buffer.length ≤ 2 ^ 63 := by
  obtain ⟨k, hk1, hk, hS⟩ := h.hpow
  constructor
  · rw [hS]
    calc 2 = 2 ^ 1 := rfl
    _ ≤ 2 ^ k := Nat.pow_le_pow_right (by omega) hk1
  · rw [hS]
    exact Nat.pow_le_pow_right (by omega) hk

theorem bmpmc_index {T : Type} {q : Bounded.Mpmc.Queue T} {acc : List T} {m : Nat}
    (h : Bounded.Mpmc.Inv q acc m) (a : Nat) :
    wrapping_index (a % UMOD) q.buffer.length = a % q.buffer.length := by
  obtain ⟨k, hk1, hk, hS⟩ := h.hpow
  rw [hS]
  exact wrapping_index_mod a k (by omega)

theorem bmpmc_produce_disc {T : Type} (q : Bounded.Mpmc.Queue T) (item : T)
    (hc : q.consumer = 0) :
    q.produce item = some (.error (.Disconnected item), q) := by
  simp [Bounded.Mpmc.Queue.produce, hc]

theorem bmpmc_produce_full {T : Type} {q : Bounded.Mpmc.Queue T} {acc : List T} {m : Nat}
    (h : Bounded.Mpmc.Inv q acc m) (item : T) (hc : ¬q.consumer = 0)
    (hfull : acc.length - m = q.buffer.length) :
    q.produce item = some (.error (.Full item), q) := by
  obtain ⟨hS2, hS63⟩ := bmpmc_size_facts h
  have hmn := h.hmn
  have hSpos : 0 < q.buffer.length := by omega
  have hidx : wrapping_index q.write q.buffer.length = acc.length % q.buffer.length := by
    rw [h.hwrite]
    exact bmpmc_index h acc.length
  obtain ⟨slot, hcell, hok⟩ :=
    h.hslot (acc.length % q.buffer.length) (Nat.mod_lt _ hSpos)
  rw [← hidx] at hcell
  have hseq : slot.sequence = (acc.length - q.buffer.length + 1) % UMOD := by
    cases hok with
    | inl hp =>
        obtain ⟨j, hmj, hjn, hji, hitem, hs⟩ := hp
        have hdvd := mod_eq_dvd_sub (Nat.le_of_lt hjn) (hji.trans rfl)
        have hj : j = acc.length - q.buffer.length := by
          rcases hdvd with ⟨c, hcc⟩
          rcases Nat.eq_zero_or_pos c with hc0 | hcpos
          · rw [hc0, Nat.mul_zero] at hcc
            omega
          · have hge : q.buffer.length ≤ acc.length - j := by
              rw [hcc]
              exact Nat.le_mul_of_pos_right _ hcpos
            omega
        rw [hs, hj]
    | inr he =>
        obtain ⟨hnone, hitem, t, hta, htb, hti, hs⟩ := he
        exfalso
        have hji : m % q.buffer.length = acc.length % q.buffer.length :=
          (Nat.modEq_iff_dvd' (by omega)).mpr ⟨1, by omega⟩
        exact hnone m (le_refl m) (by omega) hji
  have hneg : wsubi slot.sequence q.write < 0 := by
    rw [hseq, h.hwrite]
    rw [wsubi_full acc.length q.buffer.length hS2 hS63 (by omega)]
    omega
  simp [Bounded.Mpmc.Queue.produce, Bounded.Mpmc.Queue.size, hc, hcell, eq_true hneg]

theorem bmpmc_slotok_produce {T : Type} {acc : List T} {m S i2 : Nat} {slot : Bounded.Mpmc.Slot T}
    (item : T) (hok : Bounded.Mpmc.SlotOk acc m S i2 slot) (hi2 : acc.length % S ≠ i2) :
    Bounded.Mpmc.SlotOk (acc ++ [item]) m S i2 slot := by
  have hlen : (acc ++ [item]).length = acc.length + 1 := by simp
  cases hok with
  | inl hp =>
      obtain ⟨j, hmj, hjn, hji, hitem, hs⟩ := hp
      refine Or.inl ⟨j, hmj, by omega, hji, ?_, hs⟩
      rw [hitem, List.getElem?_append_left hjn]
  | inr he =>
      obtain ⟨hno, hnone, t, hta, htb, hti, hs⟩ := he
      refine Or.inr ⟨?_, hnone, t, ?_, by omega, hti, hs⟩
      · intro j hmj hj
        rw [hlen] at hj
        by_cases hjn : j = acc.length
        · rw [hjn]
          exact hi2
        · exact hno j hmj (by omega)
      · rw [hlen]
        by_cases hta2 : t = acc.length
        · exact absurd (hta2 ▸ hti) hi2
        · omega

theorem bmpmc_slotok_consume {T : Type} {acc : List T} {m S i2 : Nat}
    {slot : Bounded.Mpmc.Slot T}
    (hok : Bounded.Mpmc.SlotOk acc m S i2 slot) (hi2 : m % S ≠ i2) :
    Bounded.Mpmc.SlotOk acc (m + 1) S i2 slot := by
  cases hok with
  | inl hp =>
      obtain ⟨j, hmj, hjn, hji, hitem, hs⟩ := hp
      refine Or.inl ⟨j, ?_, hjn, hji, hitem, hs⟩
      by_cases hjm : j = m
      · exact absurd (hjm ▸ hji) hi2
      · omega
  | inr he =>
      obtain ⟨hno, hnone, t, hta, htb, hti, hs⟩ := he
      exact Or.inr ⟨fun j hmj hj => hno j (by omega) hj, hnone, t, hta, htb, hti, hs⟩

theorem bmpmc_produce_ok {T : Type} {q : Bounded.Mpmc.Queue T} {acc : List T} {m : Nat}
    (h : Bounded.Mpmc.Inv q acc m) (item : T) (hc : ¬q.consumer = 0)
    (hlt : acc.length - m < q.buffer.length) :
    ∃ q2, q.produce item = some (.ok (), q2) ∧
      Bounded.Mpmc.Inv q2 (acc ++ [item]) m := by
  obtain ⟨hS2, hS63⟩ := bmpmc_size_facts h
  have hmn := h.hmn
  have hSpos : 0 < q.buffer.length := by omega
  have hidx : wrapping_index q.write q.buffer.length = acc.length % q.buffer.length := by
    rw [h.hwrite]
    exact bmpmc_index h acc.length
  obtain ⟨slot, hcell, hok⟩ :=
    h.hslot (acc.length % q.buffer.length) (Nat.mod_lt _ hSpos)
  rw [← hidx] at hcell
  have hseq : slot.sequence = acc.length % UMOD := by
    cases hok with
    | inl hp =>
        obtain ⟨j, hmj, hjn, hji, hitem, hs⟩ := hp
        exfalso
        obtain ⟨c, hcc⟩ := mod_eq_dvd_sub (Nat.le_of_lt hjn) hji
        rcases Nat.eq_zero_or_pos c with hc0 | hcpos
        · rw [hc0, Nat.mul_zero] at hcc
          omega
        · have hge : q.buffer.length ≤ acc.length - j := by
            rw [hcc]
            exact Nat.le_mul_of_pos_right _ hcpos
          omega
    | inr he =>
        obtain ⟨hno, hnone, t, hta, htb, hti, hs⟩ := he
        obtain ⟨c, hcc⟩ := mod_eq_dvd_sub hta hti.symm
        rcases Nat.eq_zero_or_pos c with hc0 | hcpos
        · rw [hc0, Nat.mul_zero] at hcc
          have ht : t = acc.length := by omega
          rw [hs, ht]
        · have hge : q.buffer.length ≤ t - acc.length := by
            rw [hcc]
            exact Nat.le_mul_of_pos_right _ hcpos
          omega
  have hd : wsubi slot.sequence q.write = 0 := by
    rw [hseq, h.hwrite]
    exact wsubi_self acc.length
  refine ⟨Bounded.Mpmc.Queue.mk (wadd q.write 1) q.consumer q.read q.producer
    (q.buffer.set (wrapping_index q.write q.buffer.length)
      (Bounded.Mpmc.Slot.mk (some item) (wadd q.write 1))), ?_, ?_⟩
  · simp [Bounded.Mpmc.Queue.produce, Bounded.Mpmc.Queue.size, hc, hcell, hd]
  · have hsetlen : (q.buffer.set (wrapping_index q.write q.buffer.length)
        (Bounded.Mpmc.Slot.mk (some item) (wadd q.write 1))).length = q.buffer.length := by
      simp
    have hlen : (acc ++ [item]).length = acc.length + 1 := by simp
    obtain ⟨k, hk1, hk, hS⟩ := h.hpow
    refine ⟨⟨k, hk1, hk, by rw [hsetlen]; exact hS⟩, ?_, ?_, ?_, h.hread, ?_⟩
    · rw [hlen]; omega
    · rw [hlen, hsetlen]; omega
    · rw [hlen, h.hwrite, wadd_one]
    · intro i2 hi2
      rw [hsetlen] at hi2
      rw [hsetlen]
      by_cases hieq : i2 = acc.length % q.buffer.length
      · subst hieq
        rw [hidx]
        refine ⟨_, List.getElem?_set_self (Nat.mod_lt _ hSpos), ?_⟩
        refine Or.inl ⟨acc.length, by omega, by rw [hlen]; omega, rfl, ?_, ?_⟩
        · rw [List.getElem?_concat_length]
        · rw [h.hwrite, wadd_one]
      · obtain ⟨slot2, hcell2, hok2⟩ := h.hslot i2 hi2
        refine ⟨slot2, ?_, ?_⟩
        · rw [hidx, List.getElem?_set_ne (fun hcon => hieq hcon.symm)]
          exact hcell2
        · exact bmpmc_slotok_produce item hok2 (fun hcon => hieq hcon.symm)

theorem bmpmc_consume_ok {T : Type} {q : Bounded.Mpmc.Queue T} {acc : List T} {m : Nat}
    (h : Bounded.Mpmc.Inv q acc m) (hne : m < acc.length) :
    ∃ x q2, acc[m]? = some x ∧ q.consume = some (.ok x, q2) ∧
      Bounded.Mpmc.Inv q2 acc (m + 1) := by
  obtain ⟨hS2, hS63⟩ := bmpmc_size_facts h
  have hmn := h.hmn
  have hcap := h.hcap
  have hSpos : 0 < q.buffer.length := by omega
  have hidx : wrapping_index q.read q.buffer.length = m % q.buffer.length := by
    rw [h.hread]
    exact bmpmc_index h m
  obtain ⟨slot, hcell, hok⟩ := h.hslot (m % q.buffer.length) (Nat.mod_lt _ hSpos)
  rw [← hidx] at hcell
  have hx : acc[m]? = some acc[m] := List.getElem?_eq_getElem hne
  have hslotm : slot.item = acc[m]? ∧ slot.sequence = (m + 1) % UMOD := by
    cases hok with
    | inl hp =>
        obtain ⟨j, hmj, hjn, hji, hitem, hs⟩ := hp
        obtain ⟨c, hcc⟩ := mod_eq_dvd_sub hmj hji.symm
        have hj : j = m := by
          rcases Nat.eq_zero_or_pos c with hc0 | hcpos
          · rw [hc0, Nat.mul_zero] at hcc
            omega
          · have hge : q.buffer.length ≤ j - m := by
              rw [hcc]
              exact Nat.le_mul_of_pos_right _ hcpos
            omega
        subst hj
        exact ⟨hitem, hs⟩
    | inr he =>
        obtain ⟨hno, hnone, t, hta, htb, hti, hs⟩ := he
        exact absurd rfl (hno m (le_refl m) hne)
  have hitem : slot.item = some acc[m] := by rw [hslotm.1, hx]
  have hd : wsubi slot.sequence (wadd q.read 1) = 0 := by
    rw [hslotm.2, h.hread, wadd_one]
    exact wsubi_self (m + 1)
  refine ⟨acc[m], Bounded.Mpmc.Queue.mk q.write q.consumer (wadd q.read 1) q.producer
    (q.buffer.set (wrapping_index q.read q.buffer.length)
      (Bounded.Mpmc.Slot.mk none (wadd (wadd q.read 1) (q.buffer.length - 1)))), hx, ?_, ?_⟩
  · simp [Bounded.Mpmc.Queue.consume, Bounded.Mpmc.Queue.size, hcell, hd, hitem]
  · have hsetlen : (q.buffer.set (wrapping_index q.read q.buffer.length)
        (Bounded.Mpmc.Slot.mk none (wadd (wadd q.read 1) (q.buffer.length - 1)))).length =
        q.buffer.length := by simp
    obtain ⟨k, hk1, hk, hS⟩ := h.hpow
    have hseq2 : wadd (wadd q.read 1) (q.buffer.length - 1) = (m + q.buffer.length) % UMOD := by
      rw [h.hread]
      exact wadd_size m q.buffer.length (by omega)
    refine ⟨⟨k, hk1, hk, by rw [hsetlen]; exact hS⟩, hne, ?_, h.hwrite, ?_, ?_⟩
    · rw [hsetlen]; omega
    · rw [h.hread, wadd_one]
    · intro i2 hi2
      rw [hsetlen] at hi2
      rw [hsetlen]
      by_cases hieq : i2 = m % q.buffer.length
      · subst hieq
        rw [hidx]
        refine ⟨_, List.getElem?_set_self (Nat.mod_lt _ hSpos), ?_⟩
        refine Or.inr ⟨?_, rfl, m + q.buffer.length, by omega, by omega, ?_, hseq2⟩
        · intro j hmj hj hcon
          obtain ⟨c, hcc⟩ := mod_eq_dvd_sub (show m ≤ j by omega) (hcon.trans rfl).symm
          rcases Nat.eq_zero_or_pos c with hc0 | hcpos
          · rw [hc0, Nat.mul_zero] at hcc
            omega
          · have hge : q.buffer.length ≤ j - m := by
              rw [hcc]
              exact Nat.le_mul_of_pos_right _ hcpos
            omega
        · exact Nat.add_mod_right m q.buffer.length
      · obtain ⟨slot2, hcell2, hok2⟩ := h.hslot i2 hi2
        refine ⟨slot2, ?_, ?_⟩
        · rw [hidx, List.getElem?_set_ne (fun hcon => hieq hcon.symm)]
          exact hcell2
        · exact bmpmc_slotok_consume hok2 (fun hcon => hieq hcon.symm)

theorem bmpmc_consume_empty {T : Type} {q : Bounded.Mpmc.Queue T} {acc : List T} {m : Nat}
    (h : Bounded.Mpmc.Inv q acc m) (he : ¬m < acc.length) :
    q.consume = some (.error (if q.producer = 0 then .Disconnected else .Empty), q) := by
  obtain ⟨hS2, hS63⟩ := bmpmc_size_facts h
  have hmn := h.hmn
  have hm : m = acc.length := by omega
  have hSpos : 0 < q.buffer.length := by omega
  have hidx : wrapping_index q.read q.buffer.length = m % q.buffer.length := by
    rw [h.hread]
    exact bmpmc_index h m
  obtain ⟨slot, hcell, hok⟩ := h.hslot (m % q.buffer.length) (Nat.mod_lt _ hSpos)
  rw [← hidx] at hcell
  have hseq : slot.sequence = m % UMOD := by
    cases hok with
    | inl hp =>
        obtain ⟨j, hmj, hjn, hji, hitem, hs⟩ := hp
        omega
    | inr he2 =>
        obtain ⟨hno, hnone, t, hta, htb, hti, hs⟩ := he2
        obtain ⟨c, hcc⟩ := mod_eq_dvd_sub (show m ≤ t by omega) hti.symm
        rcases Nat.eq_zero_or_pos c with hc0 | hcpos
        · rw [hc0, Nat.mul_zero] at hcc
          have ht : t = m := by omega
          rw [hs, ht]
        · have hge : q.buffer.length ≤ t - m := by
            rw [hcc]
            exact Nat.le_mul_of_pos_right _ hcpos
          omega
  have hneg : wsubi slot.sequence (wadd q.read 1) < 0 := by
    rw [hseq, h.hread, wadd_one, wsubi_pred]
    omega
  by_cases hp : q.producer = 0 <;>
    simp [Bounded.Mpmc.Queue.consume, Bounded.Mpmc.Queue.size, hcell, eq_true hneg, hp]

theorem bmpmc_inv_new (T : Type) (size k : Nat) (hk1 : 1 ≤ k) (hk : k ≤ 63)
    (hS : size = 2 ^ k) :
    Bounded.Mpmc.Inv (Bounded.Mpmc.Queue.new T size) [] 0 := by
  have hlen : (Bounded.Mpmc.Queue.new T size).buffer.length = size := by
    simp [Bounded.Mpmc.Queue.new]
  refine ⟨⟨k, hk1, hk, by rw [hlen, hS]⟩, le_refl 0, by simp [hlen], ?_, ?_, ?_⟩
  · exact (Nat.zero_mod UMOD).symm
  · exact (Nat.zero_mod UMOD).symm
  · intro i hi
    rw [hlen] at hi
    refine ⟨Bounded.Mpmc.Slot.new T i, ?_, ?_⟩
    · simp [Bounded.Mpmc.Queue.new, List.getElem?_map, List.getElem?_range hi]
    · refine Or.inr ⟨by simp, rfl, i, by simp, by rw [hlen]; simpa using hi, ?_, ?_⟩
      · rw [hlen]
        exact Nat.mod_eq_of_lt hi
      · have hiU : i < UMOD := by
          have : size ≤ 2 ^ 63 := by rw [hS]; exact Nat.pow_le_pow_right (by omega) hk
          unfold UMOD
          omega
        exact (Nat.mod_eq_of_lt hiU).symm

theorem bmpmc_sound (T : Type) : Sound (Bounded.Mpmc.model T) Bounded.Mpmc.Inv := by
  refine ⟨fun q acc m h => h.hmn, ?_, ?_, ?_, ?_⟩
  · intro q acc m item h
    by_cases hc : q.consumer = 0
    · exact ⟨.error (.Disconnected item), q,
        by simp only [Bounded.Mpmc.model]; rw [bmpmc_produce_disc q item hc],
        Or.inr ⟨_, rfl, h⟩⟩
    · have hcap := h.hcap
      by_cases hfull : acc.length - m = q.buffer.length
      · exact ⟨.error (.Full item), q,
          by simp only [Bounded.Mpmc.model]; rw [bmpmc_produce_full h item hc hfull],
          Or.inr ⟨_, rfl, h⟩⟩
      · obtain ⟨q2, heq, hinv⟩ := bmpmc_produce_ok h item hc (by omega)
        exact ⟨.ok (), q2, by simp only [Bounded.Mpmc.model]; rw [heq], Or.inl ⟨rfl, hinv⟩⟩
  · intro q acc m h
    by_cases hne : m < acc.length
    · obtain ⟨x, q2, hx, heq, hinv⟩ := bmpmc_consume_ok h hne
      exact ⟨q2, by rw [if_pos hne]; exact ⟨x, hx, heq, hinv⟩⟩
    · exact ⟨q, by rw [if_neg hne]; exact ⟨_, bmpmc_consume_empty h hne, h⟩⟩
  · intro q acc m h
    simp only [Bounded.Mpmc.model, Bounded.Mpmc.Queue.producerDrop]
    exact ⟨h.hpow, h.hmn, h.hcap, h.hwrite, h.hread, h.hslot⟩
  · intro q acc m h
    simp only [Bounded.Mpmc.model, Bounded.Mpmc.Queue.consumerDrop]
    exact ⟨h.hpow, h.hmn, h.hcap, h.hwrite, h.hread, h.hslot⟩

theorem bmpmc_fifo (T : Type) (size k : Nat) (hk1 : 1 ≤ k) (hk : k ≤ 63) (hS : size = 2 ^ k) :
    FifoDrain (Bounded.Mpmc.model T) (Bounded.Mpmc.Queue.new T size) :=
  fifo_of_sound (bmpmc_sound T) _ (bmpmc_inv_new T size k hk1 hk hS)

theorem getElem?_some_lt {α : Type} {l : List α} {n : Nat} {a : α} (h : l[n]? = some a) :
    n < l.length := by
  by_contra hcon
  rw [List.getElem?_eq_none (by omega)] at h
  cases h

theorem chain_le {T : Type} {heap : Unbounded.Heap T} :
    ∀ {xs : List T} {a w : Nat}, Unbounded.Chain heap a xs w → a ≤ w := by
  intro xs
  induction xs with
  | nil => intro a w h; exact Nat.le_of_eq h
  | cons x xs ih =>
      intro a w h
      obtain ⟨node, b, bnode, hna, hnn, hab, hnb, hbi, hrest⟩ := h
      exact Nat.le_of_lt (Nat.lt_of_lt_of_le hab (ih hrest))

theorem chain_set_lt {T : Type} {heap : Unbounded.Heap T} {c : Nat}
    (v : Option (Unbounded.Node T)) :
    ∀ {xs : List T} {a w : Nat}, Unbounded.Chain heap a xs w → c < a →
    Unbounded.Chain (heap.set c v) a xs w := by
  intro xs
  induction xs with
  | nil => intro a w h hc; exact h
  | cons x xs ih =>
      intro a w h hc
      obtain ⟨node, b, bnode, hna, hnn, hab, hnb, hbi, hrest⟩ := h
      exact ⟨node, b, bnode, by rw [List.getElem?_set_ne (by omega)]; exact hna, hnn, hab,
        by rw [List.getElem?_set_ne (by omega)]; exact hnb, hbi, ih hrest (by omega)⟩

theorem chain_set_head {T : Type} {heap : Unbounded.Heap T} {a w : Nat} {xs : List T}
    {node node2 : Unbounded.Node T}
    (h : Unbounded.Chain heap a xs w) (hna : heap[a]? = some (some node))
    (hnext : node2.next = node.next) :
    Unbounded.Chain (heap.set a (some node2)) a xs w := by
  cases xs with
  | nil => exact h
  | cons x xs =>
      obtain ⟨node3, b, bnode, hna3, hnn, hab, hnb, hbi, hrest⟩ := h
      have hnode3 : node3 = node := by
        rw [hna3] at hna
        exact Option.some.inj (Option.some.inj hna)
      subst hnode3
      refine ⟨node2, b, bnode, ?_, by rw [hnext]; exact hnn, hab, ?_, hbi, ?_⟩
      · rw [List.getElem?_set_self (getElem?_some_lt hna3)]
      · rw [List.getElem?_set_ne (by omega)]
        exact hnb
      · exact chain_set_lt (some node2) hrest hab

theorem chain_append {T : Type} {heap : Unbounded.Heap T} {w : Nat}
    {wnode : Unbounded.Node T} (x : T)
    (hw : heap[w]? = some (some wnode)) (hwn : wnode.next = none) :
    ∀ {xs : List T} {a : Nat}, Unbounded.Chain heap a xs w →
    Unbounded.Chain
      ((heap ++ [some (Unbounded.Node.mk (some x) none)]).set w
        (some (Unbounded.Node.mk wnode.item (some heap.length))))
      a (xs ++ [x]) heap.length := by
  have hwlt : w < heap.length := getElem?_some_lt hw
  intro xs
  induction xs with
  | nil =>
      intro a h
      have haw : a = w := h
      subst haw
      refine ⟨Unbounded.Node.mk wnode.item (some heap.length), heap.length,
        Unbounded.Node.mk (some x) none, ?_, rfl, hwlt, ?_, rfl, rfl⟩
      · rw [List.getElem?_set_self (by simp; omega)]
      · rw [List.getElem?_set_ne (by omega), List.getElem?_concat_length]
  | cons y ys ih =>
      intro a h
      obtain ⟨node, b, bnode, hna, hnn, hab, hnb, hbi, hrest⟩ := h
      have halt : a < heap.length := getElem?_some_lt hna
      have hblt : b < heap.length := getElem?_some_lt hnb
      have haw : a ≠ w := by
        intro hcon
        subst hcon
        rw [hna] at hw
        have : node = wnode := Option.some.inj (Option.some.inj hw)
        rw [this, hwn] at hnn
        cases hnn
      refine ⟨node, b, ?_, ?_, hnn, hab, ?_, ?_, ih hrest⟩
      · exact if hbw : b = w then Unbounded.Node.mk wnode.item (some heap.length) else bnode
      · rw [List.getElem?_set_ne (fun hcon => haw hcon.symm),
          List.getElem?_append_left halt]
        exact hna
      · by_cases hbw : b = w
        · rw [dif_pos hbw, hbw, List.getElem?_set_self (by simp; omega)]
        · rw [dif_neg hbw, List.getElem?_set_ne (fun hcon => hbw hcon.symm),
            List.getElem?_append_left hblt]
          exact hnb
      · by_cases hbw : b = w
        · rw [dif_pos hbw]
          subst hbw
          rw [hnb] at hw
          have hbww : bnode = wnode := Option.some.inj (Option.some.inj hw)
          rw [← hbww]
          exact hbi
        · rw [dif_neg hbw]
          exact hbi

theorem uspsc_produce_ok {T : Type} {q : Unbounded.Spsc.Queue T} {acc : List T} {m : Nat}
    (h : Unbounded.Spsc.Inv q acc m) (item : T) (hc : ¬q.consumer = 0) :
    ∃ q2, q.produce item = some (.ok (), q2) ∧
      Unbounded.Spsc.Inv q2 (acc ++ [item]) m ∧ q2.consumer = q.consumer := by
  obtain ⟨wnode, hw, hwn⟩ := h.hwnode
  have hwlt : q.write < q.heap.length := getElem?_some_lt hw
  have hcell : (q.heap ++ [some (Unbounded.Node.mk (some item) none)])[q.write]? =
      some (some wnode) := by
    rw [List.getElem?_append_left hwlt]
    exact hw
  refine ⟨Unbounded.Spsc.Queue.mk q.heap.length q.consumer q.read q.producer
    ((q.heap ++ [some (Unbounded.Node.mk (some item) none)]).set q.write
      (some (Unbounded.Node.mk wnode.item (some q.heap.length)))), ?_, ?_, rfl⟩
  · simp [Unbounded.Spsc.Queue.produce, hc, hcell]
  · obtain ⟨rnode, hr, hri⟩ := h.hsent
    have hrlt : q.read < q.heap.length := getElem?_some_lt hr
    have hmn := h.hmn
    refine ⟨by simp; omega, ?_, ?_, ?_⟩
    · rw [List.drop_append_of_le_length h.hmn]
      exact chain_append item hw hwn h.hchain
    · by_cases hrw : q.read = q.write
      · refine ⟨Unbounded.Node.mk wnode.item (some q.heap.length), ?_, ?_⟩
        · rw [hrw, List.getElem?_set_self (by simp; omega)]
        · have hrnw : rnode = wnode := by
            rw [hrw, hw] at hr
            exact (Option.some.inj (Option.some.inj hr)).symm
          rw [hrnw] at hri
          exact hri
      · refine ⟨rnode, ?_, hri⟩
        rw [List.getElem?_set_ne (fun hcon => hrw hcon.symm),
          List.getElem?_append_left hrlt]
        exact hr
    · refine ⟨Unbounded.Node.mk (some item) none, ?_, rfl⟩
      rw [List.getElem?_set_ne (by dsimp only; omega), List.getElem?_concat_length]

theorem uspsc_consume_ok {T : Type} {q : Unbounded.Spsc.Queue T} {acc : List T} {m : Nat}
    (h : Unbounded.Spsc.Inv q acc m) (hne : m < acc.length) :
    ∃ x q2, acc[m]? = some x ∧ q.consume = some (.ok x, q2) ∧
      Unbounded.Spsc.Inv q2 acc (m + 1) := by
  have hx : acc[m]? = some acc[m] := List.getElem?_eq_getElem hne
  have hdrop : acc.drop m = acc[m] :: acc.drop (m + 1) := List.drop_eq_getElem_cons hne
  have hchain := h.hchain
  rw [hdrop] at hchain
  obtain ⟨node, b, bnode, hna, hnn, hab, hnb, hbi, hrest⟩ := hchain
  have hblt : b < q.heap.length := getElem?_some_lt hnb
  refine ⟨acc[m], Unbounded.Spsc.Queue.mk q.write q.consumer b q.producer
    ((q.heap.set b (some (Unbounded.Node.mk none bnode.next))).set q.read none),
    hx, ?_, ?_⟩
  · simp [Unbounded.Spsc.Queue.consume, hna, hnn, hnb, hbi]
  · refine ⟨by omega, ?_, ?_, ?_⟩
    · exact chain_set_lt none (chain_set_head hrest hnb rfl) hab
    · refine ⟨Unbounded.Node.mk none bnode.next, ?_, rfl⟩
      rw [List.getElem?_set_ne (by dsimp only; omega), List.getElem?_set_self hblt]
    · obtain ⟨wnode, hw, hwn⟩ := h.hwnode
      have hbw2 : b ≤ q.write := chain_le hrest
      by_cases hbw : b = q.write
      · refine ⟨Unbounded.Node.mk none bnode.next, ?_, ?_⟩
        · rw [List.getElem?_set_ne (by dsimp only; omega), ← hbw, List.getElem?_set_self hblt]
        · have hbnw : bnode = wnode := by
            rw [← hbw, hnb] at hw
            exact Option.some.inj (Option.some.inj hw)
          rw [hbnw]
          exact hwn
      · refine ⟨wnode, ?_, hwn⟩
        rw [List.getElem?_set_ne (by dsimp only; omega), List.getElem?_set_ne (fun hcon => hbw hcon)]
        exact hw

theorem uspsc_consume_empty {T : Type} {q : Unbounded.Spsc.Queue T} {acc : List T} {m : Nat}
    (h : Unbounded.Spsc.Inv q acc m) (he : ¬m < acc.length) :
    q.consume = some (.error (if q.producer = 0 then .Disconnected else .Empty), q) := by
  have hmn := h.hmn
  have hm : m = acc.length := by omega
  have hdrop : acc.drop m = [] := List.drop_eq_nil_of_le (by omega)
  have hchain := h.hchain
  rw [hdrop] at hchain
  have hrw : q.read = q.write := hchain
  obtain ⟨wnode, hw, hwn⟩ := h.hwnode
  have hr : q.heap[q.read]? = some (some wnode) := by rw [hrw]; exact hw
  by_cases hp : q.producer = 0 <;>
    simp [Unbounded.Spsc.Queue.consume, hr, hwn, hp]

theorem uspsc_produce_disc {T : Type} (q : Unbounded.Spsc.Queue T) (item : T)
    (hc : q.consumer = 0) :
    q.produce item = some (.error (.Disconnected item), q) := by
  simp [Unbounded.Spsc.Queue.produce, hc]

theorem uspsc_inv_new (T : Type) : Unbounded.Spsc.Inv (Unbounded.Spsc.Queue.new T) [] 0 := by
  refine ⟨le_refl 0, rfl, ?_, ?_⟩
  · exact ⟨Unbounded.Node.mk none none, rfl, rfl⟩
  · exact ⟨Unbounded.Node.mk none none, rfl, rfl⟩

theorem uspsc_sound (T : Type) : Sound (Unbounded.Spsc.model T) Unbounded.Spsc.Inv := by
  refine ⟨fun q acc m h => h.hmn, ?_, ?_, ?_, ?_⟩
  · intro q acc m item h
    by_cases hc : q.consumer = 0
    · exact ⟨.error (.Disconnected item), q,
        by simp only [Unbounded.Spsc.model]; rw [uspsc_produce_disc q item hc],
        Or.inr ⟨_, rfl, h⟩⟩
    · obtain ⟨q2, heq, hinv, hcons2⟩ := uspsc_produce_ok h item hc
      exact ⟨.ok (), q2, by simp only [Unbounded.Spsc.model]; rw [heq], Or.inl ⟨rfl, hinv⟩⟩
  · intro q acc m h
    by_cases hne : m < acc.length
    · obtain ⟨x, q2, hx, heq, hinv⟩ := uspsc_consume_ok h hne
      exact ⟨q2, by rw [if_pos hne]; exact ⟨x, hx, heq, hinv⟩⟩
    · exact ⟨q, by rw [if_neg hne]; exact ⟨_, uspsc_consume_empty h hne, h⟩⟩
  · intro q acc m h
    simp only [Unbounded.Spsc.model, Unbounded.Spsc.Queue.producerDrop]
    exact ⟨h.hmn, h.hchain, h.hsent, h.hwnode⟩
  · intro q acc m h
    simp only [Unbounded.Spsc.model, Unbounded.Spsc.Queue.consumerDrop]
    exact ⟨h.hmn, h.hchain, h.hsent, h.hwnode⟩

theorem uspsc_fifo (T : Type) :
    FifoDrain (Unbounded.Spsc.model T) (Unbounded.Spsc.Queue.new T) :=
  fifo_of_sound (uspsc_sound T) _ (uspsc_inv_new T)

theorem umpmc_produce_ok {T : Type} {q : Unbounded.Mpmc.Queue T} {acc : List T} {m : Nat}
    (h : Unbounded.Mpmc.Inv q acc m) (item : T) (hc : ¬q.consumers = 0) :
    ∃ q2, q.produce item = some (.ok (), q2) ∧
      Unbounded.Mpmc.Inv q2 (acc ++ [item]) m := by
  obtain ⟨wnode, hw, hwn⟩ := h.hwnode
  have hwlt : q.write < q.heap.length := getElem?_some_lt hw
  have hcell : (q.heap ++ [some (Unbounded.Node.mk (some item) none)])[q.write]? =
      some (some wnode) := by
    rw [List.getElem?_append_left hwlt]
    exact hw
  refine ⟨Unbounded.Mpmc.Queue.mk q.heap.length q.producers q.read q.consumers
    ((q.heap ++ [some (Unbounded.Node.mk (some item) none)]).set q.write
      (some (Unbounded.Node.mk wnode.item (some q.heap.length)))) q.threads, ?_, ?_⟩
  · simp [Unbounded.Mpmc.Queue.produce, hc, hcell, hwn]
  · obtain ⟨rnode, hr, hri⟩ := h.hsent
    have hrlt : q.read < q.heap.length := getElem?_some_lt hr
    have hmn := h.hmn
    refine ⟨by simp; omega, ?_, ?_, ?_⟩
    · rw [List.drop_append_of_le_length h.hmn]
      exact chain_append item hw hwn h.hchain
    · by_cases hrw : q.read = q.write
      · refine ⟨Unbounded.Node.mk wnode.item (some q.heap.length), ?_, ?_⟩
        · rw [hrw, List.getElem?_set_self (by simp; omega)]
        · have hrnw : rnode = wnode := by
            rw [hrw, hw] at hr
            exact (Option.some.inj (Option.some.inj hr)).symm
          rw [hrnw] at hri
          exact hri
      · refine ⟨rnode, ?_, hri⟩
        rw [List.getElem?_set_ne (fun hcon => hrw hcon.symm),
          List.getElem?_append_left hrlt]
        exact hr
    · refine ⟨Unbounded.Node.mk (some item) none, ?_, rfl⟩
      rw [List.getElem?_set_ne (by dsimp only; omega), List.getElem?_concat_length]

theorem umpmc_consume_ok {T : Type} {q : Unbounded.Mpmc.Queue T} {acc : List T} {m : Nat}
    (h : Unbounded.Mpmc.Inv q acc m) (hne : m < acc.length) :
    ∃ x q2, acc[m]? = some x ∧ q.consume = some (.ok x, q2) ∧
      Unbounded.Mpmc.Inv q2 acc (m + 1) := by
  have hx : acc[m]? = some acc[m] := List.getElem?_eq_getElem hne
  have hdrop : acc.drop m = acc[m] :: acc.drop (m + 1) := List.drop_eq_getElem_cons hne
  have hchain := h.hchain
  rw [hdrop] at hchain
  obtain ⟨node, b, bnode, hna, hnn, hab, hnb, hbi, hrest⟩ := hchain
  have hblt : b < q.heap.length := getElem?_some_lt hnb
  have hbw2 : b ≤ q.write := chain_le hrest
  have hrw : ¬q.read = q.write := by omega
  refine ⟨acc[m], Unbounded.Mpmc.Queue.mk q.write q.producers b q.consumers
    (q.heap.set b (some (Unbounded.Node.mk none bnode.next))) q.threads,
    hx, ?_, ?_⟩
  · simp [Unbounded.Mpmc.Queue.consume, hrw, hna, hnn, hnb, hbi]
  · refine ⟨by omega, ?_, ?_, ?_⟩
    · exact chain_set_head hrest hnb rfl
    · refine ⟨Unbounded.Node.mk none bnode.next, ?_, rfl⟩
      rw [List.getElem?_set_self hblt]
    · obtain ⟨wnode, hw, hwn⟩ := h.hwnode
      by_cases hbw : b = q.write
      · refine ⟨Unbounded.Node.mk none bnode.next, ?_, ?_⟩
        · rw [← hbw, List.getElem?_set_self hblt]
        · have hbnw : bnode = wnode := by
            rw [← hbw, hnb] at hw
            exact Option.some.inj (Option.some.inj hw)
          rw [hbnw]
          exact hwn
      · refine ⟨wnode, ?_, hwn⟩
        rw [List.getElem?_set_ne (fun hcon => hbw hcon)]
        exact hw

theorem umpmc_consume_empty {T : Type} {q : Unbounded.Mpmc.Queue T} {acc : List T} {m : Nat}
    (h : Unbounded.Mpmc.Inv q acc m) (he : ¬m < acc.length) :
    q.consume = some (.error (if q.producers = 0 then .Disconnected else .Empty), q) := by
  have hmn := h.hmn
  have hdrop : acc.drop m = [] := List.drop_eq_nil_of_le (by omega)
  have hchain := h.hchain
  rw [hdrop] at hchain
  have hrw : q.read = q.write := hchain
  by_cases hp : q.producers = 0 <;>
    simp [Unbounded.Mpmc.Queue.consume, hrw, hp]

theorem umpmc_produce_disc {T : Type} (q : Unbounded.Mpmc.Queue T) (item : T)
    (hc : q.consumers = 0) :
    q.produce item = some (.error (.Disconnected item), q) := by
  simp [Unbounded.Mpmc.Queue.produce, hc]

theorem umpmc_inv_new (T : Type) (threads : Nat) :
    Unbounded.Mpmc.Inv (Unbounded.Mpmc.Queue.new T threads) [] 0 := by
  refine ⟨le_refl 0, rfl, ?_, ?_⟩
  · exact ⟨Unbounded.Node.mk none none, rfl, rfl⟩
  · exact ⟨Unbounded.Node.mk none none, rfl, rfl⟩

theorem umpmc_sound (T : Type) : Sound (Unbounded.Mpmc.model T) Unbounded.Mpmc.Inv := by
  refine ⟨fun q acc m h => h.hmn, ?_, ?_, ?_, ?_⟩
  · intro q acc m item h
    by_cases hc : q.consumers = 0
    · exact ⟨.error (.Disconnected item), q,
        by simp only [Unbounded.Mpmc.model]; rw [umpmc_produce_disc q item hc],
        Or.inr ⟨_, rfl, h⟩⟩
    · obtain ⟨q2, heq, hinv⟩ := umpmc_produce_ok h item hc
      exact ⟨.ok (), q2, by simp only [Unbounded.Mpmc.model]; rw [heq], Or.inl ⟨rfl, hinv⟩⟩
  · intro q acc m h
    by_cases hne : m < acc.length
    · obtain ⟨x, q2, hx, heq, hinv⟩ := umpmc_consume_ok h hne
      exact ⟨q2, by rw [if_pos hne]; exact ⟨x, hx, heq, hinv⟩⟩
    · exact ⟨q, by rw [if_neg hne]; exact ⟨_, umpmc_consume_empty h hne, h⟩⟩
  · intro q acc m h
    simp only [Unbounded.Mpmc.model, Unbounded.Mpmc.Queue.producerDrop]
    exact ⟨h.hmn, h.hchain, h.hsent, h.hwnode⟩
  · intro q acc m h
    simp only [Unbounded.Mpmc.model, Unbounded.Mpmc.Queue.consumerDrop]
    exact ⟨h.hmn, h.hchain, h.hsent, h.hwnode⟩

theorem umpmc_fifo (T : Type) (threads : Nat) :
    FifoDrain (Unbounded.Mpmc.model T) (Unbounded.Mpmc.Queue.new T threads) :=
  fifo_of_sound (umpmc_sound T) _ (umpmc_inv_new T threads)

theorem umpmc_tryCloneSide_none {T : Type} (op : CloneOp) (q : Unbounded.Mpmc.Queue T)
    (h : q.threads = []) : Unbounded.Mpmc.tryCloneSide op q = none := by
  cases op <;>
    simp [Unbounded.Mpmc.tryCloneSide, Unbounded.Mpmc.Queue.tryCloneProducer,
      Unbounded.Mpmc.Queue.tryCloneConsumer, h]

theorem umpmc_tryCloneSide_some {T : Type} (op : CloneOp) (q : Unbounded.Mpmc.Queue T)
    (ys : List Nat) (t : Nat) (h : q.threads = ys ++ [t]) :
    ∃ q2, Unbounded.Mpmc.tryCloneSide op q = some (t, q2) ∧ q2.threads = ys := by
  have hgl : q.threads.getLast? = some t := by rw [h, List.getLast?_concat]
  have hdl : q.threads.dropLast = ys := by rw [h, List.dropLast_concat]
  cases op with
  | prod =>
      refine ⟨Unbounded.Mpmc.Queue.mk q.write (wadd q.producers 1) q.read q.consumers
        q.heap q.threads.dropLast, ?_, hdl⟩
      simp [Unbounded.Mpmc.tryCloneSide, Unbounded.Mpmc.Queue.tryCloneProducer, hgl]
  | cons =>
      refine ⟨Unbounded.Mpmc.Queue.mk q.write q.producers q.read (wadd q.consumers 1)
        q.heap q.threads.dropLast, ?_, hdl⟩
      simp [Unbounded.Mpmc.tryCloneSide, Unbounded.Mpmc.Queue.tryCloneConsumer, hgl]

theorem umpmc_runClones_spec {T : Type} :
    ∀ (ops : List CloneOp) (q : Unbounded.Mpmc.Queue T),
    (Unbounded.Mpmc.runClones ops q).2.threads =
      q.threads.take (q.threads.length - min ops.length q.threads.length) ∧
    (Unbounded.Mpmc.runClones ops q).1.length = min ops.length q.threads.length ∧
    ∀ t2, t2 ∈ (Unbounded.Mpmc.runClones ops q).1 → t2 ∈ q.threads := by
  intro ops
  induction ops with
  | nil =>
      intro q
      refine ⟨by simp [Unbounded.Mpmc.runClones], by simp [Unbounded.Mpmc.runClones], ?_⟩
      intro t2 ht2
      simp [Unbounded.Mpmc.runClones] at ht2
  | cons op ops ih =>
      intro q
      rcases List.eq_nil_or_concat q.threads with hnil | ⟨ys, t, hys⟩
      · have hstep := umpmc_tryCloneSide_none op q hnil
        have hrun : Unbounded.Mpmc.runClones (op :: ops) q =
            Unbounded.Mpmc.runClones ops q := by
          simp [Unbounded.Mpmc.runClones, hstep]
        obtain ⟨h1, h2, h3⟩ := ih q
        refine ⟨?_, ?_, ?_⟩
        · rw [hrun, h1, hnil]
          simp
        · rw [hrun, h2, hnil]
          simp
        · intro t2 ht2
          rw [hrun] at ht2
          exact h3 t2 ht2
      · rw [List.concat_eq_append] at hys
        obtain ⟨q2, hstep, hq2⟩ := umpmc_tryCloneSide_some op q ys t hys
        have hrun : Unbounded.Mpmc.runClones (op :: ops) q =
            (t :: (Unbounded.Mpmc.runClones ops q2).1,
              (Unbounded.Mpmc.runClones ops q2).2) := by
          simp [Unbounded.Mpmc.runClones, hstep]
        obtain ⟨h1, h2, h3⟩ := ih q2
        have hlen : q.threads.length = ys.length + 1 := by rw [hys]; simp
        have hmin : min (op :: ops).length q.threads.length =
            min ops.length ys.length + 1 := by
          rw [hlen]
          simp only [List.length_cons]
          omega
        refine ⟨?_, ?_, ?_⟩
        · rw [hrun]
          dsimp only
          rw [h1, hq2, hmin, hlen, hys]
          have harith : ys.length + 1 - (min ops.length ys.length + 1) =
              ys.length - min ops.length ys.length := by omega
          rw [harith,
            List.take_append_of_le_length (by omega)]
        · rw [hrun]
          dsimp only
          rw [List.length_cons, h2, hq2, hmin]
        · intro t2 ht2
          rw [hrun] at ht2
          simp only [List.mem_cons] at ht2
          cases ht2 with
          | inl heq =>
              rw [heq, hys]
              exact List.mem_append_right ys (List.mem_singleton.mpr rfl)
          | inr hmem =>
              have hm2 := h3 t2 hmem
              rw [hq2] at hm2
              rw [hys]
              exact List.mem_append_left [t] hm2

theorem wadd_ring (a S : Nat) (hS : 1 ≤ S) :
    wadd (wadd a 1) (S - 1) = (a + S) % UMOD := by
  unfold wadd UMOD
  omega

theorem is_power_of_two_iff (n : Nat) (hn : n < UMOD) :
    (is_power_of_two n = true) ↔ ∃ k, n = 2 ^ k := by
  unfold is_power_of_two
  rw [List.any_eq_true]
  constructor
  · rintro ⟨k, hk, heq⟩
    exact ⟨k, by simpa using heq⟩
  · rintro ⟨k, heq⟩
    refine ⟨k, List.mem_range.mpr ?_, by simp [heq]⟩
    by_contra hcon
    have hle : (2 : Nat) ^ 64 ≤ 2 ^ k := Nat.pow_le_pow_right (by omega) (by omega)
    unfold UMOD at hn
    omega

theorem pow_k_le_63 (size k : Nat) (hn : size < UMOD) (heq : size = 2 ^ k) : k ≤ 63 := by
  by_contra hcon
  have hle : (2 : Nat) ^ 64 ≤ 2 ^ k := Nat.pow_le_pow_right (by omega) (by omega)
  unfold UMOD at hn
  omega

theorem three_not_pow : ¬∃ k, (3 : Nat) = 2 ^ k := by
  rintro ⟨k, hk⟩
  match k with
  | 0 => simp at hk
  | 1 => simp at hk
  | k + 2 =>
      have h4 : (4 : Nat) ≤ 2 ^ (k + 2) := by
        calc (4 : Nat) = 2 ^ 2 := rfl
        _ ≤ 2 ^ (k + 2) := Nat.pow_le_pow_right (by omega) (by omega)
      omega

/-- C1 counterexample: the claim fails on the code at bounded MPMC size
one (a power of two the constructor accepts). Producing 1 and then 2
both return Ok (the second produce overwrites the pending item, since
the slot sequence equals the writer ticket when the single-slot ring is
full), and the following consume can never return: its retry loop spins
forever on a positive sequence difference, so the consumed sequence can
never equal the accepted sequence 1, 2. -/
theorem C1_counterexample :
    ((Bounded.Mpmc.model Nat).run [.produce 1, .produce 2]
        (Bounded.Mpmc.Queue.new Nat 1)).map Prod.fst =
      some [.accepted 1, .accepted 2] ∧
    (Bounded.Mpmc.model Nat).run [.produce 1, .produce 2, .consume]
      (Bounded.Mpmc.Queue.new Nat 1) = none := by
  decide

/-- C1 (amended): for the bounded SPSC queue at every power-of-two
size, the unbounded SPSC queue, the unbounded MPMC queue, and the
bounded MPMC queue at sizes of at least two, every sequential
interleaving of operations through one producer and one consumer handle
delivers items in FIFO order: the items returned by successful consume
calls so far, followed by the items obtained by draining, equal in
order the items accepted by successful produce calls. In particular
bounded SPSC channel(4) accepts 1, 2, 3, 4 and four consumes return
them in order. -/
theorem C1_fifo_drain :
    (∀ (T : Type) (size k : Nat), k ≤ 63 → size = 2 ^ k →
      FifoDrain (Bounded.Spsc.model T) (Bounded.Spsc.Queue.new T size)) ∧
    (∀ (T : Type) (size k : Nat), 1 ≤ k → k ≤ 63 → size = 2 ^ k →
      FifoDrain (Bounded.Mpmc.model T) (Bounded.Mpmc.Queue.new T size)) ∧
    (∀ T : Type, FifoDrain (Unbounded.Spsc.model T) (Unbounded.Spsc.Queue.new T)) ∧
    (∀ (T : Type) (threads : Nat),
      FifoDrain (Unbounded.Mpmc.model T) (Unbounded.Mpmc.Queue.new T threads)) ∧
    ((Bounded.Spsc.model Nat).run
        [.produce 1, .produce 2, .produce 3, .produce 4,
          .consume, .consume, .consume, .consume]
        (Bounded.Spsc.Queue.new Nat 4)).map Prod.fst =
      some [.accepted 1, .accepted 2, .accepted 3, .accepted 4,
            .consumed 1, .consumed 2, .consumed 3, .consumed 4] :=
  ⟨fun T size k hk hS => bspsc_fifo T size k hk hS,
   fun T size k hk1 hk hS => bmpmc_fifo T size k hk1 hk hS,
   fun T => uspsc_fifo T,
   fun T threads => umpmc_fifo T threads,
   by decide⟩

theorem C1_witness :
    (∃ evts q evts2 q2,
      (Bounded.Spsc.model Nat).run [Op.produce 9] (Bounded.Spsc.Queue.new Nat 4) =
        some (evts, q) ∧
      (Bounded.Spsc.model Nat).run
        (List.replicate (acceptedOf evts).length .consume) q = some (evts2, q2) ∧
      consumedOf evts ++ consumedOf evts2 = acceptedOf evts) ∧
    (∃ evts q evts2 q2,
      (Bounded.Mpmc.model Nat).run [Op.produce 9] (Bounded.Mpmc.Queue.new Nat 4) =
        some (evts, q) ∧
      (Bounded.Mpmc.model Nat).run
        (List.replicate (acceptedOf evts).length .consume) q = some (evts2, q2) ∧
      consumedOf evts ++ consumedOf evts2 = acceptedOf evts) :=
  ⟨C1_fifo_drain.1 Nat 4 2 (by decide) (by decide) [Op.produce 9],
   C1_fifo_drain.2.1 Nat 4 2 (by decide) (by decide) (by decide) [Op.produce 9]⟩

/-- C2 counterexample: at bounded MPMC size one, after two accepted
produces an item certainly remains in the queue, yet consume does not
return Ok with it (nor anything else): the retry loop spins forever. -/
theorem C2_counterexample :
    ((Bounded.Mpmc.model Nat).run [.produce 7, .produce 8]
        (Bounded.Mpmc.Queue.new Nat 1)).map Prod.fst =
      some [.accepted 7, .accepted 8] ∧
    (Bounded.Mpmc.model Nat).run [.produce 7, .produce 8, .consume]
      (Bounded.Mpmc.Queue.new Nat 1) = none := by
  decide

/-- C2 (amended): for every queue variant in every reachable state
(bounded MPMC restricted to sizes of at least two), consume returns
Disconnected only when the queue is empty and the producer count is 0,
and as long as an item remains consume returns Ok with the oldest
pending item, regardless of the producer count. Concretely, on bounded
MPMC after producing 7 and dropping the producer, the first consume
returns Ok(7) and the second returns Disconnected. -/
theorem C2_disconnected_precise :
    (∀ (T : Type) (q : Bounded.Spsc.Queue T) (acc : List T) (m : Nat),
      Bounded.Spsc.Inv q acc m →
      (∀ q2, q.consume = some (.error .Disconnected, q2) →
        m = acc.length ∧ q.producer = 0) ∧
      (m < acc.length → ∃ x q2, acc[m]? = some x ∧ q.consume = some (.ok x, q2))) ∧
    (∀ (T : Type) (q : Bounded.Mpmc.Queue T) (acc : List T) (m : Nat),
      Bounded.Mpmc.Inv q acc m →
      (∀ q2, q.consume = some (.error .Disconnected, q2) →
        m = acc.length ∧ q.producer = 0) ∧
      (m < acc.length → ∃ x q2, acc[m]? = some x ∧ q.consume = some (.ok x, q2))) ∧
    (∀ (T : Type) (q : Unbounded.Spsc.Queue T) (acc : List T) (m : Nat),
      Unbounded.Spsc.Inv q acc m →
      (∀ q2, q.consume = some (.error .Disconnected, q2) →
        m = acc.length ∧ q.producer = 0) ∧
      (m < acc.length → ∃ x q2, acc[m]? = some x ∧ q.consume = some (.ok x, q2))) ∧
    (∀ (T : Type) (q : Unbounded.Mpmc.Queue T) (acc : List T) (m : Nat),
      Unbounded.Mpmc.Inv q acc m →
      (∀ q2, q.consume = some (.error .Disconnected, q2) →
        m = acc.length ∧ q.producers = 0) ∧
      (m < acc.length → ∃ x q2, acc[m]? = some x ∧ q.consume = some (.ok x, q2))) ∧
    ((Bounded.Mpmc.model Nat).run [.produce 7, .dropProducer, .consume, .consume]
        (Bounded.Mpmc.Queue.new Nat 2)).map Prod.fst =
      some [.accepted 7, .consumed 7, .failed .Disconnected] := by
  refine ⟨?_, ?_, ?_, ?_, by decide⟩
  · intro T q acc m h
    constructor
    · intro q2 hd
      by_cases hne : m < acc.length
      · obtain ⟨x, q3, hx, heq, hinv⟩ := bspsc_consume_ok h hne
        rw [heq] at hd
        simp at hd
      · obtain ⟨q3, heq, hinv⟩ := bspsc_consume_empty h hne
        rw [heq] at hd
        have hmn := h.hmn
        by_cases hp : q.producer = 0
        · exact ⟨by omega, hp⟩
        · rw [if_neg hp] at hd
          simp at hd
    · intro hne
      obtain ⟨x, q3, hx, heq, hinv⟩ := bspsc_consume_ok h hne
      exact ⟨x, q3, hx, heq⟩
  · intro T q acc m h
    constructor
    · intro q2 hd
      by_cases hne : m < acc.length
      · obtain ⟨x, q3, hx, heq, hinv⟩ := bmpmc_consume_ok h hne
        rw [heq] at hd
        simp at hd
      · have heq := bmpmc_consume_empty h hne
        rw [heq] at hd
        have hmn := h.hmn
        by_cases hp : q.producer = 0
        · exact ⟨by omega, hp⟩
        · rw [if_neg hp] at hd
          simp at hd
    · intro hne
      obtain ⟨x, q3, hx, heq, hinv⟩ := bmpmc_consume_ok h hne
      exact ⟨x, q3, hx, heq⟩
  · intro T q acc m h
    constructor
    · intro q2 hd
      by_cases hne : m < acc.length
      · obtain ⟨x, q3, hx, heq, hinv⟩ := uspsc_consume_ok h hne
        rw [heq] at hd
        simp at hd
      · have heq := uspsc_consume_empty h hne
        rw [heq] at hd
        have hmn := h.hmn
        by_cases hp : q.producer = 0
        · exact ⟨by omega, hp⟩
        · rw [if_neg hp] at hd
          simp at hd
    · intro hne
      obtain ⟨x, q3, hx, heq, hinv⟩ := uspsc_consume_ok h hne
      exact ⟨x, q3, hx, heq⟩
  · intro T q acc m h
    constructor
    · intro q2 hd
      by_cases hne : m < acc.length
      · obtain ⟨x, q3, hx, heq, hinv⟩ := umpmc_consume_ok h hne
        rw [heq] at hd
        simp at hd
      · have heq := umpmc_consume_empty h hne
        rw [heq] at hd
        have hmn := h.hmn
        by_cases hp : q.producers = 0
        · exact ⟨by omega, hp⟩
        · rw [if_neg hp] at hd
          simp at hd
    · intro hne
      obtain ⟨x, q3, hx, heq, hinv⟩ := umpmc_consume_ok h hne
      exact ⟨x, q3, hx, heq⟩

theorem bmpmc_inv_seven :
    Bounded.Mpmc.Inv
      (Bounded.Mpmc.Queue.mk 1 1 0 1
        [Bounded.Mpmc.Slot.mk (some 7) 1, Bounded.Mpmc.Slot.mk none 1])
      [7] 0 := by
  refine ⟨⟨1, le_refl 1, by omega, rfl⟩, by decide, by decide, by decide, by decide, ?_⟩
  intro i hi
  have hi2 : i < 2 := by simpa using hi
  interval_cases i
  · refine ⟨Bounded.Mpmc.Slot.mk (some 7) 1, rfl, Or.inl ⟨0, ?_, ?_, ?_, rfl, ?_⟩⟩
    · exact le_refl 0
    · decide
    · decide
    · decide
  · refine ⟨Bounded.Mpmc.Slot.mk none 1, rfl, Or.inr ⟨?_, rfl, 1, ?_, ?_, ?_, ?_⟩⟩
    · intro j hj hj2
      have hj3 : j < 1 := by simpa using hj2
      interval_cases j
      decide
    · decide
    · decide
    · decide
    · decide

theorem C2_witness :
    ∃ x q2, ([7] : List Nat)[0]? = some x ∧
      (Bounded.Mpmc.Queue.mk 1 1 0 1
        [Bounded.Mpmc.Slot.mk (some 7) 1, Bounded.Mpmc.Slot.mk none 1]).consume =
        some (.ok x, q2) :=
  (C2_disconnected_precise.2.1 Nat
    (Bounded.Mpmc.Queue.mk 1 1 0 1
      [Bounded.Mpmc.Slot.mk (some 7) 1, Bounded.Mpmc.Slot.mk none 1])
    [7] 0 bmpmc_inv_seven).2 (by decide)

/-- C3: the bounded MPMC per-slot sequence counters follow the ticket
protocol. Slot k starts with sequence k (and an uninitialised cell); a
successful produce that claimed writer ticket w stores the item in slot
w mod S and publishes sequence w + 1; a successful consume that claimed
reader ticket r empties slot r mod S and publishes sequence
(r + 1) + (S - 1) = r + S; all arithmetic wraps modulo 2 ^ 64. -/
theorem C3_ticket_protocol :
    (∀ (T : Type) (size i : Nat), i < size →
      ∃ slot, (Bounded.Mpmc.Queue.new T size).buffer[i]? = some slot ∧
        slot.sequence = i ∧ slot.item = none) ∧
    (∀ (T : Type) (q : Bounded.Mpmc.Queue T) (item : T) (q2 : Bounded.Mpmc.Queue T),
      q.produce item = some (.ok (), q2) →
      ∃ slot, q2.buffer[wrapping_index q.write q.size]? = some slot ∧
        slot.sequence = (q.write + 1) % UMOD ∧ slot.item = some item) ∧
    (∀ (T : Type) (q : Bounded.Mpmc.Queue T) (x : T) (q2 : Bounded.Mpmc.Queue T),
      q.consume = some (.ok x, q2) →
      ∃ slot, q2.buffer[wrapping_index q.read q.size]? = some slot ∧
        slot.sequence = (q.read + q.size) % UMOD ∧ slot.item = none) := by
  refine ⟨?_, ?_, ?_⟩
  · intro T size i hi
    refine ⟨Bounded.Mpmc.Slot.new T i, ?_, rfl, rfl⟩
    simp [Bounded.Mpmc.Queue.new, List.getElem?_map, List.getElem?_range hi]
  · intro T q item q2 h
    by_cases hc : q.consumer = 0
    · rw [bmpmc_produce_disc q item hc] at h
      simp at h
    · cases hcell : q.buffer[wrapping_index q.write q.size]? with
      | none =>
          simp [Bounded.Mpmc.Queue.produce, hc, hcell] at h
      | some slot =>
          have hlt : wrapping_index q.write q.size < q.buffer.length :=
            getElem?_some_lt hcell
          by_cases hd1 : wsubi slot.sequence q.write < 0
          · simp [Bounded.Mpmc.Queue.produce, hc, hcell, hd1] at h
          · by_cases hd2 : wsubi slot.sequence q.write = 0
            · simp only [Bounded.Mpmc.Queue.produce, hc, if_false, hcell, hd1, hd2,
                if_true, eq_self_iff_true, ite_false, ite_true] at h
              rw [if_neg (by norm_num : ¬((0 : Int) < 0))] at h
              have hq2 : q2 = Bounded.Mpmc.Queue.mk (wadd q.write 1) q.consumer q.read
                  q.producer (q.buffer.set (wrapping_index q.write q.size)
                    (Bounded.Mpmc.Slot.mk (some item) (wadd q.write 1))) :=
                ((Prod.mk.injEq _ _ _ _).mp (Option.some.inj h)).2.symm
              rw [hq2]
              refine ⟨Bounded.Mpmc.Slot.mk (some item) (wadd q.write 1), ?_, rfl, rfl⟩
              exact List.getElem?_set_self hlt
            · simp [Bounded.Mpmc.Queue.produce, hc, hcell, hd1, hd2] at h
  · intro T q x q2 h
    cases hcell : q.buffer[wrapping_index q.read q.size]? with
    | none =>
        simp [Bounded.Mpmc.Queue.consume, hcell] at h
    | some slot =>
        have hlt : wrapping_index q.read q.size < q.buffer.length :=
          getElem?_some_lt hcell
        have hS1 : 1 ≤ q.buffer.length := by omega
        by_cases hd1 : wsubi slot.sequence (wadd q.read 1) < 0
        · by_cases hp : q.producer = 0 <;>
            simp [Bounded.Mpmc.Queue.consume, hcell, hd1, hp] at h
        · by_cases hd2 : wsubi slot.sequence (wadd q.read 1) = 0
          · cases hitem : slot.item with
            | none =>
                simp [Bounded.Mpmc.Queue.consume, hcell, hd1, hd2, hitem] at h
            | some y =>
                simp only [Bounded.Mpmc.Queue.consume, hcell, hitem, hd2] at h
                rw [if_neg (by norm_num : ¬((0 : Int) < 0))] at h
                have hq2 : q2 = Bounded.Mpmc.Queue.mk q.write q.consumer (wadd q.read 1)
                    q.producer (q.buffer.set (wrapping_index q.read q.size)
                      (Bounded.Mpmc.Slot.mk none
                        (wadd (wadd q.read 1) (q.size - 1)))) :=
                  ((Prod.mk.injEq _ _ _ _).mp (Option.some.inj h)).2.symm
                rw [hq2]
                refine ⟨Bounded.Mpmc.Slot.mk none (wadd (wadd q.read 1) (q.size - 1)),
                  ?_, ?_, rfl⟩
                · exact List.getElem?_set_self hlt
                · exact wadd_ring q.read q.size hS1
          · simp [Bounded.Mpmc.Queue.consume, hcell, hd1, hd2] at h

theorem C3_witness :
    (∃ slot, (Bounded.Mpmc.Queue.new Nat 2).buffer[0]? = some slot ∧
      slot.sequence = 0 ∧ slot.item = none) ∧
    (∃ slot,
      (Bounded.Mpmc.Queue.mk (wadd 0 1) 1 0 1
        (((Bounded.Mpmc.Queue.new Nat 2).buffer).set 0
          (Bounded.Mpmc.Slot.mk (some 5) (wadd 0 1)))).buffer[wrapping_index
            (Bounded.Mpmc.Queue.new Nat 2).write (Bounded.Mpmc.Queue.new Nat 2).size]? =
        some slot ∧
      slot.sequence = ((Bounded.Mpmc.Queue.new Nat 2).write + 1) % UMOD ∧
      slot.item = some 5) :=
  ⟨C3_ticket_protocol.1 Nat 2 0 (by decide),
   C3_ticket_protocol.2.1 Nat (Bounded.Mpmc.Queue.new Nat 2) 5
     (Bounded.Mpmc.Queue.mk (wadd 0 1) 1 0 1
       (((Bounded.Mpmc.Queue.new Nat 2).buffer).set 0
         (Bounded.Mpmc.Slot.mk (some 5) (wadd 0 1)))) (by rfl)⟩

/-- Every produce path returns Ok, diverges, or rejects with an error
that carries the argument item (bounded SPSC). -/
theorem bspsc_produce_shape {T : Type} (q : Bounded.Spsc.Queue T) (item : T) :
    (q.produce item).1 = .ok () ∨ (q.produce item).1 = .error (.Disconnected item) ∨
      (q.produce item).1 = .error (.Full item) := by
  unfold Bounded.Spsc.Queue.produce
  simp only []
  repeat' split
  all_goals simp

/-- Every produce path returns Ok, diverges, or rejects with an error
that carries the argument item (bounded MPMC). -/
theorem bmpmc_produce_shape {T : Type} (q : Bounded.Mpmc.Queue T) (item : T) :
    (q.produce item).map Prod.fst = none ∨
      (q.produce item).map Prod.fst = some (.ok ()) ∨
      (q.produce item).map Prod.fst = some (.error (.Disconnected item)) ∨
      (q.produce item).map Prod.fst = some (.error (.Full item)) := by
  unfold Bounded.Mpmc.Queue.produce
  simp only []
  repeat' split
  all_goals simp

/-- Every produce path returns Ok, diverges, or rejects with an error
that carries the argument item (unbounded SPSC). -/
theorem uspsc_produce_shape {T : Type} (q : Unbounded.Spsc.Queue T) (item : T) :
    (q.produce item).map Prod.fst = none ∨
      (q.produce item).map Prod.fst = some (.ok ()) ∨
      (q.produce item).map Prod.fst = some (.error (.Disconnected item)) ∨
      (q.produce item).map Prod.fst = some (.error (.Full item)) := by
  unfold Unbounded.Spsc.Queue.produce
  simp only []
  repeat' split
  all_goals simp

/-- Every produce path returns Ok, diverges, or rejects with an error
that carries the argument item (unbounded MPMC). -/
theorem umpmc_produce_shape {T : Type} (q : Unbounded.Mpmc.Queue T) (item : T) :
    (q.produce item).map Prod.fst = none ∨
      (q.produce item).map Prod.fst = some (.ok ()) ∨
      (q.produce item).map Prod.fst = some (.error (.Disconnected item)) ∨
      (q.produce item).map Prod.fst = some (.error (.Full item)) := by
  unfold Unbounded.Mpmc.Queue.produce
  simp only []
  repeat' split
  all_goals simp

/-- C4: whenever produce rejects an item, the error (Full or
Disconnected) carries exactly the item passed in, and
ProduceError::item extracts it from either variant, for every queue
variant; no rejected item is lost. -/
theorem C4_error_carries_item :
    (∀ (T : Type) (x : T), (ProduceError.Full x).item = x ∧
      (ProduceError.Disconnected x).item = x) ∧
    (∀ (T : Type) (q : Bounded.Spsc.Queue T) (item : T) (e : ProduceError T) q2,
      q.produce item = (.error e, q2) → e.item = item) ∧
    (∀ (T : Type) (q : Bounded.Mpmc.Queue T) (item : T) (e : ProduceError T) q2,
      q.produce item = some (.error e, q2) → e.item = item) ∧
    (∀ (T : Type) (q : Unbounded.Spsc.Queue T) (item : T) (e : ProduceError T) q2,
      q.produce item = some (.error e, q2) → e.item = item) ∧
    (∀ (T : Type) (q : Unbounded.Mpmc.Queue T) (item : T) (e : ProduceError T) q2,
      q.produce item = some (.error e, q2) → e.item = item) := by
  refine ⟨fun T x => ⟨rfl, rfl⟩, ?_, ?_, ?_, ?_⟩
  · intro T q item e q2 h
    have hm : (q.produce item).1 = .error e := by rw [h]
    rcases bspsc_produce_shape q item with hs | hs | hs <;> rw [hs] at hm
    · simp at hm
    · rw [Except.error.inj hm.symm]
      rfl
    · rw [Except.error.inj hm.symm]
      rfl
  · intro T q item e q2 h
    have hm : (q.produce item).map Prod.fst = some (.error e) := by rw [h]; rfl
    rcases bmpmc_produce_shape q item with hs | hs | hs | hs <;> rw [hs] at hm
    · simp at hm
    · simp at hm
    · rw [Except.error.inj (Option.some.inj hm).symm]
      rfl
    · rw [Except.error.inj (Option.some.inj hm).symm]
      rfl
  · intro T q item e q2 h
    have hm : (q.produce item).map Prod.fst = some (.error e) := by rw [h]; rfl
    rcases uspsc_produce_shape q item with hs | hs | hs | hs <;> rw [hs] at hm
    · simp at hm
    · simp at hm
    · rw [Except.error.inj (Option.some.inj hm).symm]
      rfl
    · rw [Except.error.inj (Option.some.inj hm).symm]
      rfl
  · intro T q item e q2 h
    have hm : (q.produce item).map Prod.fst = some (.error e) := by rw [h]; rfl
    rcases umpmc_produce_shape q item with hs | hs | hs | hs <;> rw [hs] at hm
    · simp at hm
    · simp at hm
    · rw [Except.error.inj (Option.some.inj hm).symm]
      rfl
    · rw [Except.error.inj (Option.some.inj hm).symm]
      rfl

theorem C4_witness :
    (ProduceError.Full (3 : Nat)).item = 3 ∧ (ProduceError.Disconnected (3 : Nat)).item = 3 ∧
    (ProduceError.Disconnected (5 : Nat)).item = 5 :=
  ⟨(C4_error_carries_item.1 Nat 3).1, (C4_error_carries_item.1 Nat 3).2,
   C4_error_carries_item.2.1 Nat
     (Bounded.Spsc.Queue.consumerDrop (Bounded.Spsc.Queue.new Nat 2)) 5
     (ProduceError.Disconnected 5)
     (Bounded.Spsc.Queue.consumerDrop (Bounded.Spsc.Queue.new Nat 2)) (by rfl)⟩

theorem uspsc_produce_all_ok :
    ∀ (xs : List Nat) (q : Unbounded.Spsc.Queue Nat) (acc : List Nat) (m : Nat),
      Unbounded.Spsc.Inv q acc m → ¬q.consumer = 0 →
      ((Unbounded.Spsc.model Nat).run (xs.map Op.produce) q).map Prod.fst =
        some (xs.map Event.accepted) := by
  intro xs
  induction xs with
  | nil =>
      intro q acc m h hc
      simp [QueueModel.run]
  | cons x xs ih =>
      intro q acc m h hc
      obtain ⟨q2, heq, hinv, hcons⟩ := uspsc_produce_ok h x hc
      have hrec := ih q2 (acc ++ [x]) m hinv (by rw [hcons]; exact hc)
      have hstep : (Unbounded.Spsc.model Nat).step (Op.produce x) q =
          some ([Event.accepted x], q2) := by
        simp only [QueueModel.step, Unbounded.Spsc.model]
        rw [heq]
        rfl
      simp only [List.map_cons, QueueModel.run, hstep]
      cases hrun : (Unbounded.Spsc.model Nat).run (xs.map Op.produce) q2 with
      | none =>
          rw [hrun] at hrec
          simp at hrec
      | some r =>
          rw [hrun] at hrec
          simp at hrec
          simp [hrec]

/-- C5: the unbounded variants never report Full: from every reachable
state in which the consumer count is nonzero, produce returns Ok. In
particular a fresh unbounded SPSC channel accepts any number of
consecutive produce calls (for example one million) with no intervening
consumes, every one returning Ok. -/
theorem C5_unbounded_never_full :
    (∀ (T : Type) (q : Unbounded.Spsc.Queue T) (acc : List T) (m : Nat) (item : T),
      Unbounded.Spsc.Inv q acc m → ¬q.consumer = 0 →
      ∃ q2, q.produce item = some (.ok (), q2)) ∧
    (∀ (T : Type) (q : Unbounded.Mpmc.Queue T) (acc : List T) (m : Nat) (item : T),
      Unbounded.Mpmc.Inv q acc m → ¬q.consumers = 0 →
      ∃ q2, q.produce item = some (.ok (), q2)) ∧
    (∀ xs : List Nat,
      ((Unbounded.Spsc.model Nat).run (xs.map Op.produce)
        (Unbounded.Spsc.Queue.new Nat)).map Prod.fst = some (xs.map Event.accepted)) := by
  refine ⟨?_, ?_, ?_⟩
  · intro T q acc m item h hc
    obtain ⟨q2, heq, hinv, hcons⟩ := uspsc_produce_ok h item hc
    exact ⟨q2, heq⟩
  · intro T q acc m item h hc
    obtain ⟨q2, heq, hinv⟩ := umpmc_produce_ok h item hc
    exact ⟨q2, heq⟩
  · intro xs
    exact uspsc_produce_all_ok xs (Unbounded.Spsc.Queue.new Nat) [] 0
      (uspsc_inv_new Nat) (by decide)

theorem C5_witness :
    ∃ q2, (Unbounded.Spsc.Queue.new Nat).produce 7 = some (.ok (), q2) :=
  C5_unbounded_never_full.1 Nat (Unbounded.Spsc.Queue.new Nat) [] 0 7
    (uspsc_inv_new Nat) (by decide)

/-- C6: constructing a bounded channel (SPSC or MPMC) with a size that
is not a power of two, including zero, panics (modelled as `none`); for
every power-of-two size the construction succeeds with a queue of
capacity exactly that size. -/
theorem C6_power_of_two :
    ∀ (T : Type) (size : Nat), size < UMOD →
      ((∃ k, size = 2 ^ k) →
        ∃ q1 q2, Bounded.Spsc.channel T size = some q1 ∧ q1.capacity = size ∧
          Bounded.Mpmc.channel T size = some q2 ∧ q2.size = size) ∧
      ((¬∃ k, size = 2 ^ k) →
        Bounded.Spsc.channel T size = none ∧ Bounded.Mpmc.channel T size = none) := by
  intro T size hsize
  constructor
  · intro hpow
    have hb : is_power_of_two size = true := (is_power_of_two_iff size hsize).mpr hpow
    refine ⟨Bounded.Spsc.Queue.new T size, Bounded.Mpmc.Queue.new T size, ?_, ?_, ?_, ?_⟩
    · simp [Bounded.Spsc.channel, hb]
    · simp [Bounded.Spsc.Queue.capacity, Bounded.Spsc.Queue.size, Bounded.Spsc.Queue.new]
    · simp [Bounded.Mpmc.channel, hb]
    · simp [Bounded.Mpmc.Queue.size, Bounded.Mpmc.Queue.new]
  · intro hpow
    have hb : ¬is_power_of_two size = true := fun hcon =>
      hpow ((is_power_of_two_iff size hsize).mp hcon)
    constructor
    · simp [Bounded.Spsc.channel, hb]
    · simp [Bounded.Mpmc.channel, hb]

theorem C6_witness :
    (∃ q1 q2, Bounded.Spsc.channel Nat 4 = some q1 ∧ q1.capacity = 4 ∧
      Bounded.Mpmc.channel Nat 4 = some q2 ∧ q2.size = 4) ∧
    (Bounded.Spsc.channel Nat 3 = none ∧ Bounded.Mpmc.channel Nat 3 = none) ∧
    (Bounded.Spsc.channel Nat 0 = none ∧ Bounded.Mpmc.channel Nat 0 = none) :=
  ⟨(C6_power_of_two Nat 4 (by decide)).1 ⟨2, rfl⟩,
   (C6_power_of_two Nat 3 (by decide)).2 three_not_pow,
   (C6_power_of_two Nat 0 (by decide)).2 (by rintro ⟨k, hk⟩; exact absurd hk.symm (Nat.pos_iff_ne_zero.mp (Nat.pos_pow_of_pos k (by omega))))⟩

/-- C7 counterexample: `channel(clones)` computes `clones + 2` in
`usize`, which wraps at `clones = usize::MAX - 1`: the pool range
`(2..0)` is empty, so not a single try_clone succeeds, contradicting
the unrestricted claim of k pool ids and k granted clones. -/
theorem C7_counterexample :
    ((Unbounded.Mpmc.channel Nat (2 ^ 64 - 2)).2.2).threads = [] ∧
    (Unbounded.Mpmc.runClones [CloneOp.prod]
      (Unbounded.Mpmc.channel Nat (2 ^ 64 - 2)).2.2).1.length = 0 := by
  constructor
  · rfl
  · rfl

/-- C7 (amended): for every k with k + 2 below 2^64 (so that the usize
addition in `channel` does not wrap), an unbounded MPMC channel built
with `channel(clones = k)` hands thread-slot ids 0 and 1 to the initial
producer and consumer and seeds the clone pool with the k ids 2..k+1.
Any sequence of try_clone calls across both sides, before any handle
drops, succeeds exactly min(attempts, k) times, every granted id comes
from the pool, at most k clones (hence at most k + 2 live handles)
exist, and once k clones have been granted every further try_clone on
either side returns none; with k = 0 no clone ever succeeds. At
k = 2^64 - 2 the addition wraps and the pool is empty instead. -/
theorem C7_clone_pool :
    ∀ (T : Type) (k : Nat), k + 2 < 2 ^ 64 →
      (Unbounded.Mpmc.channel T k).1 = 0 ∧
      (Unbounded.Mpmc.channel T k).2.1 = 1 ∧
      (Unbounded.Mpmc.channel T k).2.2.threads = List.range' 2 k ∧
      ∀ ops : List CloneOp,
        (Unbounded.Mpmc.runClones ops (Unbounded.Mpmc.channel T k).2.2).1.length =
          min ops.length k ∧
        (Unbounded.Mpmc.runClones ops (Unbounded.Mpmc.channel T k).2.2).1.length ≤ k ∧
        (∀ t, t ∈ (Unbounded.Mpmc.runClones ops (Unbounded.Mpmc.channel T k).2.2).1 →
          t ∈ List.range' 2 k) ∧
        (k ≤ ops.length →
          Unbounded.Mpmc.Queue.tryCloneProducer
            (Unbounded.Mpmc.runClones ops (Unbounded.Mpmc.channel T k).2.2).2 = none ∧
          Unbounded.Mpmc.Queue.tryCloneConsumer
            (Unbounded.Mpmc.runClones ops (Unbounded.Mpmc.channel T k).2.2).2 = none) := by
  intro T k hk
  have hthreads : (Unbounded.Mpmc.channel T k).2.2.threads = List.range' 2 k := by
    have hmod : wadd k 2 = k + 2 := by
      unfold wadd UMOD
      omega
    simp [Unbounded.Mpmc.channel, Unbounded.Mpmc.Queue.new, hmod]
  refine ⟨rfl, rfl, hthreads, ?_⟩
  intro ops
  obtain ⟨h1, h2, h3⟩ := umpmc_runClones_spec ops (Unbounded.Mpmc.channel T k).2.2
  have hlen : (Unbounded.Mpmc.channel T k).2.2.threads.length = k := by
    rw [hthreads, List.length_range']
  refine ⟨by rw [h2, hlen], by rw [h2, hlen]; omega, ?_, ?_⟩
  · intro t ht
    have := h3 t ht
    rw [hthreads] at this
    exact this
  · intro hk
    have hempty : (Unbounded.Mpmc.runClones ops (Unbounded.Mpmc.channel T k).2.2).2.threads =
        [] := by
      rw [h1, hlen]
      have : k - min ops.length k = 0 := by omega
      rw [this, List.take_zero]
    constructor
    · simp [Unbounded.Mpmc.Queue.tryCloneProducer, hempty]
    · simp [Unbounded.Mpmc.Queue.tryCloneConsumer, hempty]

/-- C8 counterexample: derived equality on ProduceError does not ignore
the carried item: Full(0) and Full(1) compare unequal. -/
theorem C8_counterexample :
    ProduceError.rustEq (ProduceError.Full (0 : Nat)) (ProduceError.Full 1) = false := by
  decide

/-- C8 (amended): the derived equality on `ProduceError<T>` compares
the discriminant and the carried item: same-variant values are equal
exactly when the items are, and mixed variants are never equal. -/
theorem C8_rust_eq :
    ∀ (T : Type) (inst : BEq T) (a b : T),
      ProduceError.rustEq (ProduceError.Full a) (ProduceError.Full b) = (a == b) ∧
      ProduceError.rustEq (ProduceError.Disconnected a) (ProduceError.Disconnected b) =
        (a == b) ∧
      ProduceError.rustEq (ProduceError.Full a) (ProduceError.Disconnected b) = false ∧
      ProduceError.rustEq (ProduceError.Disconnected a) (ProduceError.Full b) = false :=
  fun _ _ _ _ => ⟨rfl, rfl, rfl, rfl⟩

theorem C8_witness :
    ProduceError.rustEq (ProduceError.Full (0 : Nat)) (ProduceError.Full 0) =
      ((0 : Nat) == 0) :=
  (C8_rust_eq Nat inferInstance 0 0).1

/-- C9: in both unbounded variants, the `item.take().unwrap()` of a
successful consume never panics: every sequential interleaving from a
fresh channel runs to completion (no `none` outcome), and in the
resulting state the read pointer designates the sentinel, the only node
whose item slot is empty; every node reachable beyond it through next
pointers holds an item (the Chain invariant). -/
theorem C9_no_unwrap_panic :
    (∀ (T : Type) (ops : List (Op T)), ∃ evts q,
      (Unbounded.Spsc.model T).run ops (Unbounded.Spsc.Queue.new T) = some (evts, q) ∧
      (∃ rnode, q.heap[q.read]? = some (some rnode) ∧ rnode.item = none) ∧
      ∃ pnd, Unbounded.Chain q.heap q.read pnd q.write) ∧
    (∀ (T : Type) (threads : Nat) (ops : List (Op T)), ∃ evts q,
      (Unbounded.Mpmc.model T).run ops (Unbounded.Mpmc.Queue.new T threads) =
        some (evts, q) ∧
      (∃ rnode, q.heap[q.read]? = some (some rnode) ∧ rnode.item = none) ∧
      ∃ pnd, Unbounded.Chain q.heap q.read pnd q.write) := by
  constructor
  · intro T ops
    obtain ⟨evts, q2, acc2, m2, hrun, hinv, hrest⟩ :=
      run_sound (uspsc_sound T) ops (Unbounded.Spsc.Queue.new T) [] 0 (uspsc_inv_new T)
    exact ⟨evts, q2, hrun, hinv.hsent, ⟨_, hinv.hchain⟩⟩
  · intro T threads ops
    obtain ⟨evts, q2, acc2, m2, hrun, hinv, hrest⟩ :=
      run_sound (umpmc_sound T) ops (Unbounded.Mpmc.Queue.new T threads) [] 0
        (umpmc_inv_new T threads)
    exact ⟨evts, q2, hrun, hinv.hsent, ⟨_, hinv.hchain⟩⟩

/-- C10: for both bounded variants, a produce that observes the
consumer count as zero returns Disconnected carrying the item and
leaves the queue state entirely unchanged, and this takes precedence
over Full: a full queue with no consumers reports Disconnected, never
Full. -/
theorem C10_disconnected_precedence :
    (∀ (T : Type) (q : Bounded.Spsc.Queue T) (item : T), q.consumer = 0 →
      q.produce item = (.error (.Disconnected item), q)) ∧
    (∀ (T : Type) (q : Bounded.Mpmc.Queue T) (item : T), q.consumer = 0 →
      q.produce item = some (.error (.Disconnected item), q)) ∧
    ((Bounded.Spsc.model Nat).run [.produce 1, .produce 2, .dropConsumer, .produce 3]
        (Bounded.Spsc.Queue.new Nat 2)).map Prod.fst =
      some [.accepted 1, .accepted 2, .rejected (.Disconnected 3)] ∧
    ((Bounded.Mpmc.model Nat).run [.produce 1, .produce 2, .dropConsumer, .produce 3]
        (Bounded.Mpmc.Queue.new Nat 2)).map Prod.fst =
      some [.accepted 1, .accepted 2, .rejected (.Disconnected 3)] := by
  refine ⟨?_, ?_, by decide, by decide⟩
  · intro T q item hc
    exact bspsc_produce_disc q item hc
  · intro T q item hc
    exact bmpmc_produce_disc q item hc

theorem C10_witness :
    (Bounded.Spsc.Queue.consumerDrop (Bounded.Spsc.Queue.new Nat 2)).produce 5 =
      (.error (.Disconnected 5), Bounded.Spsc.Queue.consumerDrop (Bounded.Spsc.Queue.new Nat 2)) ∧
    (Bounded.Mpmc.Queue.consumerDrop (Bounded.Mpmc.Queue.new Nat 2)).produce 5 =
      some (.error (.Disconnected 5),
        Bounded.Mpmc.Queue.consumerDrop (Bounded.Mpmc.Queue.new Nat 2)) :=
  ⟨C10_disconnected_precedence.1 Nat
      (Bounded.Spsc.Queue.consumerDrop (Bounded.Spsc.Queue.new Nat 2)) 5 (by decide),
   C10_disconnected_precedence.2.1 Nat
      (Bounded.Mpmc.Queue.consumerDrop (Bounded.Mpmc.Queue.new Nat 2)) 5 (by decide)⟩

theorem C7_witness :
    1 + 2 < 2 ^ 64 ∧
    1 ≤ ([CloneOp.prod, CloneOp.cons] : List CloneOp).length ∧
    Unbounded.Mpmc.Queue.tryCloneProducer
      (Unbounded.Mpmc.runClones [CloneOp.prod, CloneOp.cons]
        (Unbounded.Mpmc.channel Nat 1).2.2).2 = none ∧
    Unbounded.Mpmc.Queue.tryCloneConsumer
      (Unbounded.Mpmc.runClones [CloneOp.prod, CloneOp.cons]
        (Unbounded.Mpmc.channel Nat 1).2.2).2 = none :=
  ⟨by decide, by decide,
   ((C7_clone_pool Nat 1 (by decide)).2.2.2 [CloneOp.prod, CloneOp.cons]).2.2.2 (by decide)⟩
